import Mathlib

/-!
# Verification of the strided tiled smoothness sieve
  (src/erdos/962/mk_iocp_tiled_sieve_strided_fastdiv.c)

This file gives a shallow embedding of the C program into Lean and proves
properties of the embedding.  Machine integers are modelled as `Nat`; the
64-bit wrap-arounds that are load-bearing in the fast-division routine are
made explicit with `% 2^64`, and the `uint32_t` cast of the remainder with
`% 2^32`.  C `for`/`while` loops are embedded as structurally recursive
functions on an explicit fuel argument, so that every definition reduces in
the kernel; each loop is used with fuel that is proved (or chosen) large
enough that the fuel branch is never hit.  The concurrent epoch machinery
(one atomic pair `best_m`/`end_limit` updated through CAS loops) is embedded
by running the workers sequentially in `tid` order and threading the pair
`(best_m, end_limit)` through `try_set_best` as pure state; one tile loop
iteration corresponds to one iteration of `worker_main`'s inner loop.
-/

namespace MkSieve

/-- `2^64`, the modulus of C `uint64_t` arithmetic. -/
def U64 : Nat := 2 ^ 64

/-- `2^32`, the modulus of C `uint32_t` arithmetic. -/
def U32 : Nat := 2 ^ 32

/-- `UINT64_MAX`, used by the program as the "no result" sentinel. -/
def U64MAX : Nat := U64 - 1

/-- u64 subtraction `a - b` (two's complement wrap), for `a, b < U64`. -/
def sub_u64 (a b : Nat) : Nat := (a + (U64 - b)) % U64

/-! ## FastDivU32 (C lines 45-93) -/

/-- `struct FastDivU32`: divisor `d` and its precomputed reciprocal `mul`. -/
structure FastDivU32 where
  d : Nat
  mul : Nat
deriving Repr, DecidableEq

/-- `mulhi_u64`: high 64 bits of the 128-bit product (line 50). -/
def mulhi_u64 (a b : Nat) : Nat := a * b / U64

/-- `fastdiv_u32_make_prime` (line 58): `mul = 2^63` for `d = 2`,
    `mul = UINT64_MAX / d` for odd `d`. -/
def fastdiv_u32_make_prime (d : Nat) : FastDivU32 :=
  if d = 2 then { d := d, mul := 2 ^ 63 } else { d := d, mul := U64MAX / d }

/-- `fastdiv_u32_divmod` (line 66): `mulhi` plus two conditional corrections;
    returns `(q, r)` with the C `uint32_t` cast on `r` made explicit. -/
def fastdiv_u32_divmod (fd : FastDivU32) (n : Nat) : Nat × Nat :=
  let d := fd.d
  let q0 := mulhi_u64 n fd.mul
  let rr := sub_u64 n (q0 * d % U64)
  let q1 := if rr ≥ d then (q0 + 1) % U64 else q0
  let rr1 := if rr ≥ d then rr - d else rr
  let q2 := if rr1 ≥ d then (q1 + 1) % U64 else q1
  let rr2 := if rr1 ≥ d then rr1 - d else rr1
  (q2, rr2 % U32)

/-- `fastdiv_u32_mod` (line 81). -/
def fastdiv_u32_mod (fd : FastDivU32) (n : Nat) : Nat :=
  (fastdiv_u32_divmod fd n).2

/-- `fastdiv_u32_divide_if_divisible` (line 87): `some q` models the C
    function returning 1 and storing the quotient; `none` models returning 0
    with `n` unchanged. -/
def fastdiv_u32_divide_if_divisible (fd : FastDivU32) (n : Nat) : Option Nat :=
  let qr := fastdiv_u32_divmod fd n
  if qr.2 ≠ 0 then none else some qr.1

/-! ## Count-trailing-zeros and factor stripping (C lines 342-354) -/

/-- Fuel-driven count of trailing zero bits; `ctzF fuel n` with `fuel ≥ n`
    computes the 2-adic valuation of `n` for `n ≥ 1`. -/
def ctzF : Nat → Nat → Nat
  | 0, _ => 0
  | fuel + 1, n => if n % 2 = 0 ∧ n ≠ 0 then ctzF fuel (n / 2) + 1 else 0

/-- `__builtin_ctzll` on the positive numbers (the only inputs the program
    ever feeds it; `ctz 0` is UB in C and irrelevant here). -/
def ctz (n : Nat) : Nat := ctzF n n

/-- The p = 2 stripping step of the sieve inner loop: `x >>= ctz(x)`. -/
def strip2 (x : Nat) : Nat := x >>> ctz x

/-- The odd-prime stripping loop
    `while (fastdiv_u32_divide_if_divisible(f, &x)) {}` with explicit fuel;
    fuel `x` always suffices since each division shrinks `x`. -/
def stripLoopOdd (fd : FastDivU32) : Nat → Nat → Nat
  | 0, x => x
  | fuel + 1, x =>
    match fastdiv_u32_divide_if_divisible fd x with
    | some q => stripLoopOdd fd fuel q
    | none => x

/-- Strip all factors of `fd.d` from `x` (the C while-loop). -/
def stripOdd (fd : FastDivU32) (x : Nat) : Nat := stripLoopOdd fd x x

/-! ## primes_upto (C lines 104-129): sieve of Eratosthenes -/

/-- Inner marking loop `for (j = i*i; j <= n; j += i) mark[j] = 1`,
    fuel-driven. -/
def markMultiples (n i : Nat) : Nat → Nat → List Bool → List Bool
  | 0, _, mark => mark
  | fuel + 1, j, mark =>
    if j ≤ n then markMultiples n i fuel (j + i) (mark.set j true) else mark

/-- Outer loop `for (i = 2; i*i <= n; ++i) { if (mark[i]) continue; ... }`,
    fuel-driven. -/
def sieveOuter (n : Nat) : Nat → Nat → List Bool → List Bool
  | 0, _, mark => mark
  | fuel + 1, i, mark =>
    if i * i ≤ n then
      sieveOuter n fuel (i + 1)
        (if mark.getD i false then mark else markMultiples n i (n + 1) (i * i) mark)
    else mark

/-- `primes_upto` (line 104): ordered list of the unmarked `i ∈ [2, n]`.
    The collect loop `for (i = 2; i <= n; ++i) if (!mark[i]) p[w++] = i`
    is rendered as a filter over `[2, ..., n]`. -/
def primes_upto (n : Nat) : List Nat :=
  if n < 2 then []
  else
    let mark := sieveOuter n (n + 1) 2 (List.replicate (n + 1) false)
    (List.range' 2 (n - 1)).filter (fun i => !mark.getD i false)

/-! ## Bitset and window scan helpers (C lines 141-149, 387-396) -/

/-- `bitset_get` as a 0/1 count contribution (out-of-range reads never occur
    in the program; they are modelled as 0). -/
def bitget (bits : List Bool) (i : Nat) : Nat := if bits.getD i false then 1 else 0

/-- The initialization loop `for (i = 0; i < k; ++i) bad += bitset_get(bad_bits, i)`
    (line 388), generalized to an arbitrary base index. -/
def countUpto (bits : List Bool) (base : Nat) : Nat → Nat
  | 0 => 0
  | j + 1 => countUpto bits base j + bitget bits (base + j)

/-- The rolling-window loop of `scan_tile_find_m_carried_fastdiv`
    (lines 391-395): `bad -= bit[s-1]; bad += bit[s+k-1]; if (bad == 0) return m0+s`.
    The two u32 updates are explicit; fuel `sc` drives `s = 1, ..., sc-1`. -/
def scanRoll (bits : List Bool) (k m0 sc : Nat) : Nat → Nat → Nat → Nat
  | 0, _, _ => U64MAX
  | fuel + 1, s, bad =>
    if s < sc then
      let bad1 := (bad + (U32 - bitget bits (s - 1))) % U32
      let bad2 := (bad1 + bitget bits (s + k - 1)) % U32
      if bad2 = 0 then m0 + s else scanRoll bits k m0 sc fuel (s + 1) bad2
    else U64MAX

/-- The scan part of `scan_tile_find_m_carried_fastdiv` (lines 387-396) as a
    pure function of the bad-bits array: return `m0 + s` for the smallest
    window `s` whose k bits sum to 0, else `UINT64_MAX`. -/
def window_scan (bits : List Bool) (k sc m0 : Nat) : Nat :=
  let bad := countUpto bits 0 k
  if bad = 0 then m0 else scanRoll bits k m0 sc sc 1 bad

/-! ## Epoch data and per-k precomputation (C lines 157-176, 277-309) -/

/-- The immutable part of `struct Epoch` relevant to the sieve/scan:
    `k`, `tile_len`, `step = tile_len * thread_count`, the prime list and the
    per-prime `fd[]` and `step_mod[]` arrays. -/
structure Epoch where
  k : Nat
  tile_len : Nat
  step : Nat
  primes : List Nat
  fd : List FastDivU32
  step_mod : List Nat
deriving Repr

/-- `epoch_prepare_math` (line 277) together with the assignments in
    `find_m_for_k` (lines 511-517): build the epoch for a given `k`. -/
def mk_epoch (k tile_len thread_count : Nat) : Epoch :=
  let primes := primes_upto k
  let step := tile_len * thread_count
  { k := k
    tile_len := tile_len
    step := step
    primes := primes
    fd := primes.map fastdiv_u32_make_prime
    step_mod := primes.map (fun p =>
      if p = 2 then step % 2 else fastdiv_u32_mod (fastdiv_u32_make_prime p) step) }

/-! ## Tile sieve (C lines 319-369) -/

/-- One pass of the inner loop `for (i = off[pi]; i < win_len; i += p)`
    applying `strip` at the visited positions.  The loop touches exactly the
    indices `i ≥ off` with `(i - off) % p = 0`, each once, so it is embedded
    positionally. -/
def stripPassAux (p off : Nat) (strip : Nat → Nat) : Nat → List Nat → List Nat
  | _, [] => []
  | i, x :: xs =>
    (if off ≤ i ∧ (i - off) % p = 0 then strip x else x) ::
      stripPassAux p off strip (i + 1) xs

/-- The per-prime pass over the residual window. -/
def stripPass (p off : Nat) (strip : Nat → Nat) (residual : List Nat) : List Nat :=
  stripPassAux p off strip 0 residual

/-- The offset advance at the end of each prime's pass (lines 358-362):
    `if (sm) off = (off >= sm) ? off - sm : off + p - sm`. -/
def advance_off (p sm off : Nat) : Nat :=
  if sm ≠ 0 then (if off ≥ sm then off - sm else off + p - sm) else off

/-- The loop over primes (lines 338-363): strip each prime from its
    residue class and advance its carried offset.  The prime, `fd`,
    `step_mod` and `off` arrays are walked in lockstep; returns the final
    residual array and the advanced offsets. -/
def sieve_passes : List Nat → List FastDivU32 → List Nat → List Nat → List Nat →
    List Nat × List Nat
  | p :: ps, f :: fs, sm :: sms, o :: os, residual =>
    let strip := fun x => if p = 2 then strip2 x else stripOdd f x
    let residual1 := stripPass p o strip residual
    let rest := sieve_passes ps fs sms os residual1
    (rest.1, advance_off p sm o :: rest.2)
  | _, _, _, _, residual => (residual, [])

/-- `sieve_window_bad_bits_carried_fastdiv` (line 319): seed
    `residual[i] = base_test + i`, strip every prime, then set
    `bad_bits[i]` iff `residual[i] == 1`.  Returns `(bad_bits, new off)`. -/
def sieve_window_bad_bits_carried_fastdiv (e : Epoch) (base_test start_count : Nat)
    (off : List Nat) : List Bool × List Nat :=
  let win_len := start_count + e.k
  let residual0 := (List.range win_len).map (fun i => base_test + i)
  let res := sieve_passes e.primes e.fd e.step_mod off residual0
  (res.1.map (fun x => x == 1), res.2)

/-- `scan_tile_find_m_carried_fastdiv` (line 371): guard degenerate counts,
    sieve the window, and scan it; `win_len` is a `uint32_t`, so its overflow
    check is modelled with an explicit `% 2^32`.  Returns the found `m` (or
    `UINT64_MAX`) together with the advanced offsets. -/
def scan_tile_find_m_carried_fastdiv (e : Epoch) (m0 start_count : Nat)
    (off : List Nat) : Nat × List Nat :=
  if start_count = 0 then (U64MAX, off)
  else
    let win_len := (start_count + e.k) % U32
    if win_len < e.k then (U64MAX, off)
    else
      let sv := sieve_window_bad_bits_carried_fastdiv e (m0 + 1) start_count off
      (window_scan sv.1 e.k start_count m0, sv.2)

/-! ## Epoch atomics, worker loop and controller (C lines 208-224, 404-537) -/

/-- `try_set_best` (line 208) under the sequential schedule: the state is the
    pair `(best_m, end_limit)`.  `best_m = min(best_m, m)`; on improvement
    `end_limit = min(end_limit, m == 0 ? 0 : m - 1)`. -/
def try_set_best (m : Nat) (st : Nat × Nat) : Nat × Nat :=
  if m ≥ st.1 then st
  else
    let new_lim := if m = 0 then 0 else m - 1
    (m, if new_lim ≥ st.2 then st.2 else new_lim)

/-- `worker_init_offsets_for_epoch` (line 404): per prime,
    `off = base_test0 & 1` for p = 2 and `off = r ? p - r : 0` with
    `r = fastdiv_u32_mod(base_test0)` for odd p. -/
def worker_init_offsets_for_epoch (e : Epoch) (start_m tid : Nat) : List Nat :=
  let base_test0 := start_m + tid * e.tile_len + 1
  List.zipWith
    (fun p f =>
      if p = 2 then base_test0 % 2
      else
        let r := fastdiv_u32_mod f base_test0
        if r ≠ 0 then p - r else 0)
    e.primes e.fd

/-- The per-epoch tile loop of `worker_main` (lines 448-467), fuel-driven:
    while `base ≤ end_limit`, scan one tile of
    `start_count = min(tile_len, end_limit - base + 1)` starts, report a hit
    through `try_set_best`, and stride to `base + step`. -/
def worker_loop (e : Epoch) : Nat → Nat → List Nat → Nat × Nat → Nat × Nat
  | 0, _, _, st => st
  | fuel + 1, base, off, st =>
    if base > st.2 then st
    else
      let max_starts := st.2 - base + 1
      let start_count := if max_starts ≥ e.tile_len then e.tile_len else max_starts
      let res := scan_tile_find_m_carried_fastdiv e base start_count off
      let st1 := if res.1 ≠ U64MAX then try_set_best res.1 st else st
      worker_loop e fuel (base + e.step) res.2 st1

/-- One epoch (`epoch_begin` + all workers + `epoch_wait`, lines 478-500)
    under the sequential schedule: start from
    `(best_m, end_limit) = (UINT64_MAX, end_m)` and run each worker
    `tid = 0, ..., thread_count-1` to completion in order. -/
def epoch_run (e : Epoch) (start_m end_m thread_count : Nat) : Nat × Nat :=
  (List.range thread_count).foldl
    (fun st tid =>
      worker_loop e (end_m + 1) (start_m + tid * e.tile_len)
        (worker_init_offsets_for_epoch e start_m tid) st)
    (U64MAX, end_m)

/-- `safe_add_u64` (line 502): saturating u64 addition. -/
def safe_add_u64 (a b : Nat) : Nat :=
  let c := (a + b) % U64
  if c < a then U64MAX else c

/-- The batch loop of `find_m_for_k` (lines 521-536), fuel-driven over
    batches: scan `[cur, cur + span - 1]`; return the first finite best. -/
def find_m_loop (e : Epoch) (tile_len batch_tiles thread_count : Nat) :
    Nat → Nat → Option Nat
  | 0, _ => none
  | fuel + 1, cur =>
    let span := tile_len * batch_tiles
    let span := if span = 0 then tile_len else span
    let endm := safe_add_u64 cur (span - 1)
    let best := (epoch_run e cur endm thread_count).1
    if best ≠ U64MAX then some best
    else find_m_loop e tile_len batch_tiles thread_count fuel (safe_add_u64 endm 1)

/-- `find_m_for_k` (line 508): build the per-k math and loop over batches.
    `fuel` bounds the number of batches (the C loop is unbounded). -/
def find_m_for_k (k start_m tile_len batch_tiles thread_count fuel : Nat) : Option Nat :=
  find_m_loop (mk_epoch k tile_len thread_count) tile_len batch_tiles thread_count
    fuel start_m

/-- The main loop over `k` (lines 668-676): each search starts at the
    previous result (`last_m`, initially 0).  Returns the list of `m(k)` for
    `k = kstart, ..., kstart + count - 1`. -/
def run_from (tile_len batch_tiles thread_count fuel : Nat) :
    Nat → Nat → Nat → Option (List Nat)
  | _, 0, _ => some []
  | k, count + 1, last_m =>
    match find_m_for_k k last_m tile_len batch_tiles thread_count fuel with
    | none => none
    | some m =>
      match run_from tile_len batch_tiles thread_count fuel (k + 1) count m with
      | none => none
      | some ms => some (m :: ms)

/-- The whole run for `k = 1, ..., K`. -/
def run_all (K tile_len batch_tiles thread_count fuel : Nat) : Option (List Nat) :=
  run_from tile_len batch_tiles thread_count fuel 1 K 0

/-- The duplicate-suppressed output (lines 665-675): starting from
    `last_print = UINT64_MAX`, print `(k, m)` whenever `m` differs from the
    last printed value. -/
def dedup_rows : Nat → Nat → List Nat → List (Nat × Nat)
  | _, _, [] => []
  | k, lastp, m :: ms =>
    if m ≠ lastp then (k, m) :: dedup_rows (k + 1) m ms
    else dedup_rows (k + 1) lastp ms

/-- The rows printed for a computed list of `m(k)` values (`k` from 1). -/
def printed_rows (ms : List Nat) : List (Nat × Nat) := dedup_rows 1 U64MAX ms

/-- `primes_upto` with its two allocation outcomes made explicit:
    `markOk` models `calloc` for the mark array succeeding, `listOk` models
    `malloc` for the output array succeeding.  On either failure the C
    function returns the zero-initialized `out`, i.e. the empty list
    (lines 109 and 120). -/
def primes_upto_alloc (markOk listOk : Bool) (n : Nat) : List Nat :=
  if n < 2 then []
  else if !markOk then []
  else if !listOk then []
  else primes_upto n

/-! ## Specification-side definitions

These are written from the specification's words, not from the C source:
the smoothness predicate, the window predicates, a structurally recursive
smoothness checker used to decide concrete instances, and the spec's
"normalized" scanner whose hit condition is a window count equal to `k`. -/

/-- Glossary: a positive integer is k-smooth when every prime factor is
    at most `k`. -/
def kSmooth (k n : Nat) : Prop := ∀ p, p.Prime → p ∣ n → p ≤ k

/-- The window property the program actually searches for: each of
    `m+1, ..., m+k` fails to be k-smooth. -/
def BadWin (k m : Nat) : Prop := ∀ j, 1 ≤ j → j ≤ k → ¬ kSmooth k (m + j)

/-- The window property the specification claims: each of `m+1, ..., m+k`
    is k-smooth. -/
def SmoothWin (k m : Nat) : Prop := ∀ j, 1 ≤ j → j ≤ k → kSmooth k (m + j)

/-- Window of `k` clear bits starting at `s`. -/
def ClearWin (bits : List Bool) (k s : Nat) : Prop :=
  ∀ j, j < k → bits.getD (s + j) false = false

/-- Window of `k` set bits starting at `s`. -/
def SetWin (bits : List Bool) (k s : Nat) : Prop :=
  ∀ j, j < k → bits.getD (s + j) false = true

/-- Plain repeated division of `x` by `d` while `d` divides `x`
    (specification-side, fuel-driven; fuel `x` always suffices). -/
def stripDivF (d : Nat) : Nat → Nat → Nat
  | 0, x => x
  | fuel + 1, x => if 2 ≤ d ∧ 1 ≤ x ∧ d ∣ x then stripDivF d fuel (x / d) else x

/-- Divide out every `d ∈ [2, k]` from `x`, in ascending order.  For
    `x ≥ 1`, the result is 1 iff `x` is k-smooth. -/
def stripAllUpto (k x : Nat) : Nat :=
  (List.range' 2 (k - 1)).foldl (fun a d => stripDivF d a a) x

/-- Decidable k-smoothness check (equivalent to `kSmooth` for `x ≥ 1`). -/
def smoothB (k x : Nat) : Bool := stripAllUpto k x == 1

/-- Decidable form of `BadWin`. -/
def badWinB (k m : Nat) : Bool :=
  (List.range' 1 k).all (fun j => !smoothB k (m + j))

/-- The rolling loop of the spec's §4.5 scanner, identical to `scanRoll`
    except that a hit is a window count equal to `k`
    (specification-side, for OQ1/claim C4). -/
def scanRollK (bits : List Bool) (k m0 sc : Nat) : Nat → Nat → Nat → Nat
  | 0, _, _ => U64MAX
  | fuel + 1, s, bad =>
    if s < sc then
      let bad1 := (bad + (U32 - bitget bits (s - 1))) % U32
      let bad2 := (bad1 + bitget bits (s + k - 1)) % U32
      if bad2 = k then m0 + s else scanRollK bits k m0 sc fuel (s + 1) bad2
    else U64MAX

/-- The spec's "normalized" scanner (§4.4/§4.5 as quoted in OQ1): same
    rolling count as `window_scan`, but a hit is `count == k`. -/
def window_scan_count_k (bits : List Bool) (k sc m0 : Nat) : Nat :=
  let bad := countUpto bits 0 k
  if bad = k then m0 else scanRollK bits k m0 sc sc 1 bad

/-- Spec §4.4: the carried offsets are correct for a tile based at
    `base_test` when each `off[pi]` is the least `i ≥ 0` with
    `(base_test + i) ≡ 0 (mod P[pi])`, i.e. `off[pi] < p` and
    `p ∣ base_test + off[pi]`. -/
def OffOK (e : Epoch) (base_test : Nat) (off : List Nat) : Prop :=
  off.length = e.primes.length ∧
  ∀ pi, pi < e.primes.length →
    off.getD pi 0 < e.primes.getD pi 0 ∧
    (base_test + off.getD pi 0) % (e.primes.getD pi 0) = 0

/-- Invariant E1 of the epoch atomics under the sequential schedule:
    either nothing was found yet (`best_m` is the sentinel and `end_limit`
    is the original `end_m`), or `best_m` is a genuine hit in range and
    `end_limit = best_m - 1` (truncated at 0). -/
def StOK (k start_m end_m : Nat) (st : Nat × Nat) : Prop :=
  (st.1 = U64MAX ∧ st.2 = end_m) ∨
  (start_m ≤ st.1 ∧ st.1 ≤ end_m ∧ BadWin k st.1 ∧ st.2 = st.1 - 1)

/-- Well-formedness of an epoch as built by `find_m_for_k` and
    `epoch_prepare_math`. -/
def EpochWF (e : Epoch) : Prop :=
  e.primes = primes_upto e.k ∧
  e.fd = e.primes.map fastdiv_u32_make_prime ∧
  e.step_mod.length = e.primes.length ∧
  (∀ pi, pi < e.primes.length →
    e.step_mod.getD pi 0 = e.step % (e.primes.getD pi 0)) ∧
  e.k < U32

/-! # Proof development -/

/-! ## FastDiv correctness -/

lemma U64_pos : 0 < U64 := by unfold U64; positivity

lemma U64MAX_add_one : U64MAX + 1 = U64 := by unfold U64MAX U64; omega

lemma sub_u64_eq {a b : Nat} (hb : b ≤ a) (ha : a < U64) : sub_u64 a b = a - b := by
  unfold sub_u64 U64 at *
  omega

/-- Both corrections together recover exact division whenever the initial
    quotient estimate is at most the true quotient and off by less than 2. -/
lemma fastdiv_u32_divmod_eq_of_bounds (fd : FastDivU32) (n d q0 : Nat)
    (hdeq : fd.d = d) (hq0 : mulhi_u64 n fd.mul = q0)
    (hd : 0 < d) (hn : n < U64)
    (h1 : q0 * d ≤ n) (h2 : n < (q0 + 2) * d) :
    fastdiv_u32_divmod fd n = (n / d, n % d % U32) := by
  unfold fastdiv_u32_divmod
  simp only []
  rw [hdeq, hq0]
  have hmod : q0 * d % U64 = q0 * d := Nat.mod_eq_of_lt (lt_of_le_of_lt h1 hn)
  rw [hmod, sub_u64_eq h1 hn]
  have hq0n : q0 ≤ n := le_trans (Nat.le_mul_of_pos_right q0 hd) h1
  have hexp : (q0 + 2) * d = q0 * d + d + d := by ring
  have hq0d : q0 ≤ q0 * d := Nat.le_mul_of_pos_right q0 hd
  by_cases hc : n - q0 * d ≥ d
  · -- one correction fires, the second does not
    have hq1mod : (q0 + 1) % U64 = q0 + 1 := Nat.mod_eq_of_lt (by omega)
    have hlt2 : ¬ (n - q0 * d - d ≥ d) := by omega
    simp only [ge_iff_le, if_pos hc, hq1mod, if_neg hlt2]
    have hsum : (n - q0 * d - d) + d * (q0 + 1) = n := by
      have : d * (q0 + 1) = q0 * d + d := by ring
      omega
    obtain ⟨e1, e2⟩ := (Nat.div_mod_unique hd).2 ⟨hsum, by omega⟩
    rw [e1, e2]
  · -- no correction fires
    simp only [ge_iff_le, if_neg hc]
    have hsum : (n - q0 * d) + d * q0 = n := by
      have : d * q0 = q0 * d := by ring
      omega
    obtain ⟨e1, e2⟩ := (Nat.div_mod_unique hd).2 ⟨hsum, by omega⟩
    rw [e1, e2]

lemma mulhi_two (n : Nat) : mulhi_u64 n (2 ^ 63) = n / 2 := by
  unfold mulhi_u64 U64
  rw [show (2 : Nat) ^ 64 = 2 ^ 63 * 2 by norm_num, Nat.mul_comm (2 ^ 63) 2,
    Nat.mul_div_mul_right _ _ (by positivity : (0 : Nat) < 2 ^ 63)]

/-- An odd prime does not divide `2^64`. -/
lemma odd_prime_not_dvd_U64 {p : Nat} (hp : p.Prime) (hodd : p ≠ 2) : ¬ p ∣ U64 := by
  intro h
  have h2 : p ∣ 2 := hp.dvd_of_dvd_pow (n := 64) h
  have h3 : p ≤ 2 := Nat.le_of_dvd (by norm_num) h2
  have h4 : 2 ≤ p := hp.two_le
  omega

/-- For an odd prime the reciprocal in the table is `⌊2^64 / p⌋`
    (the code computes `UINT64_MAX / p`, which is the same number). -/
lemma make_prime_mul_odd {p : Nat} (hp : p.Prime) (hodd : p ≠ 2) :
    (fastdiv_u32_make_prime p).mul = U64 / p := by
  unfold fastdiv_u32_make_prime
  rw [if_neg hodd]
  show U64MAX / p = U64 / p
  rw [← U64MAX_add_one, Nat.succ_div_of_not_dvd (U64MAX_add_one ▸ odd_prime_not_dvd_U64 hp hodd)]

/-- The mulhi estimate for an odd prime is within `[n/p - 1, n/p]`,
    expressed through the two bounds the correction steps need. -/
lemma mulhi_bounds_odd {p : Nat} (hp : p.Prime) (hodd : p ≠ 2) (n q0 : Nat)
    (hq0 : mulhi_u64 n (U64 / p) = q0) (hn : n < U64) :
    q0 * p ≤ n ∧ n < (q0 + 2) * p := by
  have hppos : 0 < p := hp.pos
  have hU : 0 < U64 := U64_pos
  have hdm : p * (U64 / p) + U64 % p = U64 := Nat.div_add_mod U64 p
  have hr0lt : U64 % p < p := Nat.mod_lt _ hppos
  have hr0pos : 0 < U64 % p := by
    rcases Nat.eq_zero_or_pos (U64 % p) with h | h
    · exact absurd (Nat.dvd_iff_mod_eq_zero.2 h) (odd_prime_not_dvd_U64 hp hodd)
    · exact h
  have hq0eq : n * (U64 / p) / U64 = q0 := hq0
  constructor
  · -- q0 * p ≤ n
    have ha : q0 * U64 ≤ n * (U64 / p) := by
      rw [← hq0eq]
      exact Nat.div_mul_le_self _ _
    have hb : q0 * p * U64 ≤ n * U64 := by
      calc q0 * p * U64 = q0 * U64 * p := by ring
        _ ≤ n * (U64 / p) * p := Nat.mul_le_mul_right _ ha
        _ = n * (p * (U64 / p)) := by ring
        _ ≤ n * U64 := Nat.mul_le_mul_left _ (by omega)
    exact Nat.le_of_mul_le_mul_right hb hU
  · -- n < (q0 + 2) * p
    have hqpm : p * (n / p) + n % p = n := Nat.div_add_mod n p
    have hmlt : n % p < p := Nat.mod_lt _ hppos
    rcases Nat.eq_zero_or_pos (n / p) with hq0' | hqpos
    · rw [hq0', Nat.mul_zero] at hqpm
      have hple : p ≤ (q0 + 2) * p := Nat.le_mul_of_pos_left p (by omega)
      omega
    · -- with n/p ≥ 1 we show n/p ≤ q0 + 1
      have hqple : n / p * p ≤ n := by
        have h' : n / p * p = p * (n / p) := by ring
        omega
      have hqr : n / p * (U64 % p) + 1 ≤ U64 := by
        have h1 : n / p * (U64 % p) < n / p * p :=
          Nat.mul_lt_mul_of_le_of_lt (le_refl _) hr0lt hqpos
        omega
      have hkey : n / p * U64 ≤ n * (U64 / p) + U64 := by
        have h1 : n / p * p * (U64 / p) ≤ n * (U64 / p) := Nat.mul_le_mul_right _ hqple
        have h2 : n / p * p * (U64 / p) + n / p * (U64 % p) = n / p * U64 := by
          calc n / p * p * (U64 / p) + n / p * (U64 % p)
              = n / p * (p * (U64 / p) + U64 % p) := by ring
            _ = n / p * U64 := by rw [hdm]
        omega
      have hq0ge : n / p ≤ q0 + 1 := by
        by_contra hcon
        push_neg at hcon
        have h1 : (q0 + 2) * U64 ≤ n / p * U64 := Nat.mul_le_mul_right _ hcon
        have h2 : (q0 + 2) * U64 = (q0 + 1) * U64 + U64 := by ring
        have h3 : (q0 + 1) * U64 ≤ n * (U64 / p) := by omega
        have h4 : q0 + 1 ≤ n * (U64 / p) / U64 := (Nat.le_div_iff_mul_le hU).2 h3
        omega
      have hlt : n < (n / p + 1) * p := by
        have h' : (n / p + 1) * p = p * (n / p) + p := by ring
        omega
      have hle : (n / p + 1) * p ≤ (q0 + 2) * p := Nat.mul_le_mul_right _ (by omega)
      omega

/-- Correctness of the fast division for any prime `p` and `n < 2^64`. -/
lemma fastdiv_prime_divmod {p : Nat} (hp : p.Prime) (n : Nat) (hn : n < U64) :
    fastdiv_u32_divmod (fastdiv_u32_make_prime p) n = (n / p, n % p % U32) := by
  by_cases h2 : p = 2
  · subst h2
    have hd : (fastdiv_u32_make_prime 2).d = 2 := by unfold fastdiv_u32_make_prime; simp
    have hmul : (fastdiv_u32_make_prime 2).mul = 2 ^ 63 := by
      unfold fastdiv_u32_make_prime; simp
    refine fastdiv_u32_divmod_eq_of_bounds _ n 2 (n / 2) hd ?_ (by omega) hn (by omega)
      (by omega)
    rw [hmul, mulhi_two]
  · have hd : (fastdiv_u32_make_prime p).d = p := by
      unfold fastdiv_u32_make_prime
      rw [if_neg h2]
    have hmul : mulhi_u64 n (fastdiv_u32_make_prime p).mul = mulhi_u64 n (U64 / p) := by
      rw [make_prime_mul_odd hp h2]
    obtain ⟨hb1, hb2⟩ := mulhi_bounds_odd hp h2 n (mulhi_u64 n (U64 / p)) rfl hn
    exact fastdiv_u32_divmod_eq_of_bounds _ n p (mulhi_u64 n (U64 / p)) hd hmul
      hp.pos hn hb1 hb2

lemma mod_lt_U32 {p n : Nat} (hppos : 0 < p) (hplt : p < U32) : n % p % U32 = n % p :=
  Nat.mod_eq_of_lt (lt_trans (Nat.mod_lt _ hppos) hplt)

lemma fastdiv_prime_divmod' {p : Nat} (hp : p.Prime) (hplt : p < U32) (n : Nat)
    (hn : n < U64) :
    fastdiv_u32_divmod (fastdiv_u32_make_prime p) n = (n / p, n % p) := by
  rw [fastdiv_prime_divmod hp n hn, mod_lt_U32 hp.pos hplt]

lemma fastdiv_u32_mod_eq {p : Nat} (hp : p.Prime) (hplt : p < U32) (n : Nat)
    (hn : n < U64) : fastdiv_u32_mod (fastdiv_u32_make_prime p) n = n % p := by
  unfold fastdiv_u32_mod
  rw [fastdiv_prime_divmod' hp hplt n hn]

lemma divide_if_divisible_eq {p : Nat} (hp : p.Prime) (hplt : p < U32) (n : Nat)
    (hn : n < U64) :
    fastdiv_u32_divide_if_divisible (fastdiv_u32_make_prime p) n =
      if p ∣ n then some (n / p) else none := by
  unfold fastdiv_u32_divide_if_divisible
  rw [fastdiv_prime_divmod' hp hplt n hn]
  by_cases h : p ∣ n
  · have hz : n % p = 0 := Nat.dvd_iff_mod_eq_zero.1 h
    simp [hz, h]
  · have hz : n % p ≠ 0 := fun hc => h (Nat.dvd_iff_mod_eq_zero.2 hc)
    simp [hz, h]


/-! ## Stripping all factors of a prime -/

lemma ctzF_spec : ∀ fuel n, 1 ≤ n → n ≤ fuel →
    2 ^ ctzF fuel n ∣ n ∧ (n / 2 ^ ctzF fuel n) % 2 = 1 := by
  intro fuel
  induction fuel with
  | zero => intro n h1 h2; omega
  | succ fuel ih =>
    intro n h1 h2
    unfold ctzF
    by_cases hc : n % 2 = 0 ∧ n ≠ 0
    · rw [if_pos hc]
      have hn2 : 1 ≤ n / 2 := by omega
      have hle : n / 2 ≤ fuel := by omega
      obtain ⟨hdvd, hodd⟩ := ih (n / 2) hn2 hle
      constructor
      · rw [pow_succ]
        have h' : 2 ^ ctzF fuel (n / 2) * 2 ∣ n / 2 * 2 := Nat.mul_dvd_mul hdvd (dvd_refl 2)
        have h'' : n / 2 * 2 = n := by omega
        rw [h''] at h'
        exact h'
      · have hdd : n / 2 ^ (ctzF fuel (n / 2) + 1) = n / 2 / 2 ^ ctzF fuel (n / 2) := by
          rw [Nat.div_div_eq_div_mul, pow_succ, Nat.mul_comm (2 ^ ctzF fuel (n / 2)) 2,
            Nat.mul_comm 2 (2 ^ ctzF fuel (n / 2))]
        rw [hdd]
        exact hodd
    · rw [if_neg hc]
      simp only [pow_zero, Nat.div_one]
      refine ⟨one_dvd n, by omega⟩

lemma ctz_spec (n : Nat) (hn : 1 ≤ n) :
    2 ^ ctz n ∣ n ∧ (n / 2 ^ ctz n) % 2 = 1 :=
  ctzF_spec n n hn (le_refl n)

/-- `x >>= ctz(x)` strips exactly the factors of 2: the result is odd,
    positive, and `x = 2^ctz(x) * result`. -/
lemma strip2_spec (x : Nat) (hx : 1 ≤ x) :
    strip2 x % 2 = 1 ∧ x = 2 ^ ctz x * strip2 x ∧ 1 ≤ strip2 x := by
  obtain ⟨hdvd, hodd⟩ := ctz_spec x hx
  have hshift : strip2 x = x / 2 ^ ctz x := by
    unfold strip2
    exact Nat.shiftRight_eq_div_pow x (ctz x)
  refine ⟨hshift ▸ hodd, ?_, ?_⟩
  · rw [hshift, Nat.mul_div_cancel' hdvd]
  · rw [hshift]
    rcases Nat.eq_zero_or_pos (x / 2 ^ ctz x) with h | h
    · exfalso
      have := Nat.mod_lt x (show 0 < 2 ^ ctz x by positivity)
      have hx0 : x = 0 := by
        have := Nat.div_add_mod x (2 ^ ctz x)
        have hz : x % 2 ^ ctz x = 0 := (Nat.dvd_iff_mod_eq_zero).1 hdvd
        omega
      omega
    · exact h

lemma stripDivF_spec {d : Nat} (hd : 2 ≤ d) : ∀ fuel x, 1 ≤ x → x ≤ fuel →
    1 ≤ stripDivF d fuel x ∧ ¬ d ∣ stripDivF d fuel x ∧
      ∃ e, x = d ^ e * stripDivF d fuel x := by
  intro fuel
  induction fuel with
  | zero => intro x h1 h2; omega
  | succ fuel ih =>
    intro x h1 h2
    unfold stripDivF
    by_cases hc : 2 ≤ d ∧ 1 ≤ x ∧ d ∣ x
    · rw [if_pos hc]
      have hxd : d ≤ x := Nat.le_of_dvd (by omega) hc.2.2
      have hq1 : 1 ≤ x / d := (Nat.one_le_div_iff (by omega)).2 hxd
      have hqf : x / d ≤ fuel := by
        have : x / d ≤ x / 2 := Nat.div_le_div_left hd (by omega)
        omega
      obtain ⟨ih1, ih2, e, ihe⟩ := ih (x / d) hq1 hqf
      refine ⟨ih1, ih2, e + 1, ?_⟩
      have hx : x = d * (x / d) := (Nat.mul_div_cancel' hc.2.2).symm
      rw [pow_succ]
      calc x = d * (x / d) := hx
        _ = d * (d ^ e * stripDivF d fuel (x / d)) := by rw [← ihe]
        _ = d ^ e * d * stripDivF d fuel (x / d) := by ring
    · rw [if_neg hc]
      have hnd : ¬ d ∣ x := fun h => hc ⟨hd, h1, h⟩
      exact ⟨h1, hnd, 0, by simp⟩

/-- The C odd-prime stripping loop agrees with plain repeated division on
    in-range positive inputs. -/
lemma stripLoopOdd_eq {p : Nat} (hp : p.Prime) (hplt : p < U32) :
    ∀ fuel x, 1 ≤ x → x < U64 →
      stripLoopOdd (fastdiv_u32_make_prime p) fuel x = stripDivF p fuel x := by
  intro fuel
  induction fuel with
  | zero => intro x _ _; rfl
  | succ fuel ih =>
    intro x h1 h2
    unfold stripLoopOdd stripDivF
    rw [divide_if_divisible_eq hp hplt x h2]
    by_cases hdvd : p ∣ x
    · rw [if_pos hdvd, if_pos ⟨hp.two_le, h1, hdvd⟩]
      have hxp : p ≤ x := Nat.le_of_dvd (by omega) hdvd
      have hq1 : 1 ≤ x / p := (Nat.one_le_div_iff hp.pos).2 hxp
      have hq2 : x / p < U64 := lt_of_le_of_lt (Nat.div_le_self x p) h2
      exact ih (x / p) hq1 hq2
    · rw [if_neg hdvd, if_neg (fun h => hdvd h.2.2)]

/-- `stripOdd` on an in-range positive input: result positive, not divisible
    by `p`, and `x = p^e * result`. -/
lemma stripOdd_spec {p : Nat} (hp : p.Prime) (hplt : p < U32) (x : Nat)
    (h1 : 1 ≤ x) (h2 : x < U64) :
    1 ≤ stripOdd (fastdiv_u32_make_prime p) x ∧
      ¬ p ∣ stripOdd (fastdiv_u32_make_prime p) x ∧
      ∃ e, x = p ^ e * stripOdd (fastdiv_u32_make_prime p) x := by
  unfold stripOdd
  rw [stripLoopOdd_eq hp hplt x x h1 h2]
  exact stripDivF_spec hp.two_le x x h1 (le_refl x)

/-- Full stripping of one prime preserves divisibility by every other
    prime. -/
lemma stripped_dvd_iff {p q x r : Nat} (hp : p.Prime) (hq : q.Prime) (hqp : q ≠ p)
    (he : ∃ e, x = p ^ e * r) : q ∣ r ↔ q ∣ x := by
  obtain ⟨e, rfl⟩ := he
  constructor
  · intro h
    exact Dvd.dvd.mul_left h _
  · intro h
    rcases (Nat.Prime.dvd_mul hq).1 h with h' | h'
    · exact absurd ((Nat.prime_dvd_prime_iff_eq hq hp).1 (hq.dvd_of_dvd_pow h')) hqp
    · exact h'


/-! ## Correctness of primes_upto -/

lemma getD_set_self {l : List Bool} {i : Nat} (h : i < l.length) :
    (l.set i true).getD i false = true := by
  rw [List.getD_eq_getElem?_getD, List.getElem?_set_self h]
  rfl

lemma getD_set_other {l : List Bool} {i j : Nat} (h : i ≠ j) (b : Bool) :
    (l.set i b).getD j false = l.getD j false := by
  rw [List.getD_eq_getElem?_getD, List.getElem?_set_ne h]
  rw [List.getD_eq_getElem?_getD]

lemma getD_replicate_false {m v : Nat} : (List.replicate m false).getD v false = false := by
  rw [List.getD_eq_getElem?_getD, List.getElem?_replicate]
  by_cases h : v < m <;> simp [h]

lemma markMultiples_length (n i : Nat) :
    ∀ fuel j mark, (markMultiples n i fuel j mark).length = mark.length := by
  intro fuel
  induction fuel with
  | zero => intro j mark; rfl
  | succ fuel ih =>
    intro j mark
    unfold markMultiples
    by_cases h : j ≤ n
    · rw [if_pos h, ih]
      exact List.length_set mark j true
    · rw [if_neg h]

lemma markMultiples_mono (n i : Nat) :
    ∀ fuel j mark v, mark.getD v false = true →
      (markMultiples n i fuel j mark).getD v false = true := by
  intro fuel
  induction fuel with
  | zero => intro j mark v h; exact h
  | succ fuel ih =>
    intro j mark v h
    unfold markMultiples
    by_cases hj : j ≤ n
    · rw [if_pos hj]
      refine ih (j + i) _ v ?_
      by_cases hv : j = v
      · subst hv
        have hlen : j < mark.length := by
          by_contra hc
          push_neg at hc
          rw [List.getD_eq_getElem?_getD, List.getElem?_eq_none (by omega)] at h
          exact absurd h (by simp)
        exact getD_set_self hlen
      · rw [getD_set_other hv]
        exact h
    · rw [if_neg hj]
      exact h

/-- Characterization of the inner marking loop: with enough fuel, position
    `v ≤ n` ends up marked iff it was marked before or lies on the arithmetic
    progression `j, j+i, j+2i, ...`. -/
lemma markMultiples_getD (n i : Nat) (hi : 1 ≤ i) :
    ∀ fuel j mark, mark.length = n + 1 → n + 1 ≤ j + fuel →
      ∀ v, v ≤ n →
        ((markMultiples n i fuel j mark).getD v false = true ↔
          mark.getD v false = true ∨ ∃ t, v = j + i * t) := by
  intro fuel
  induction fuel with
  | zero =>
    intro j mark hlen hfuel v hv
    constructor
    · intro h
      exact Or.inl h
    · rintro (h | ⟨t, rfl⟩)
      · exact h
      · have : i * t ≥ 0 := Nat.zero_le _
        omega
  | succ fuel ih =>
    intro j mark hlen hfuel v hv
    unfold markMultiples
    by_cases hj : j ≤ n
    · rw [if_pos hj]
      have hlen' : (mark.set j true).length = n + 1 := by
        rw [List.length_set]; exact hlen
      rw [ih (j + i) _ hlen' (by omega) v hv]
      by_cases hveq : v = j
      · subst hveq
        have hset : (mark.set v true).getD v false = true :=
          getD_set_self (by omega)
        constructor
        · intro _
          exact Or.inr ⟨0, by omega⟩
        · intro _
          exact Or.inl hset
      · rw [getD_set_other (fun h => hveq h.symm)]
        constructor
        · rintro (h | ⟨t, ht⟩)
          · exact Or.inl h
          · exact Or.inr ⟨t + 1, by rw [ht]; ring⟩
        · rintro (h | ⟨t, ht⟩)
          · exact Or.inl h
          · rcases t with _ | t'
            · exfalso
              apply hveq
              rw [ht]
              omega
            · refine Or.inr ⟨t', ?_⟩
              rw [ht]
              ring
    · rw [if_neg hj]
      constructor
      · intro h
        exact Or.inl h
      · rintro (h | ⟨t, rfl⟩)
        · exact h
        · have : i * t ≥ 0 := Nat.zero_le _
          omega

lemma markMultiples_sound (n i : Nat) (hi : 2 ≤ i) :
    ∀ fuel j mark, i ∣ j → i * i ≤ j →
      (∀ v, v ≤ n → mark.getD v false = true → ¬ v.Prime) →
      ∀ v, v ≤ n → (markMultiples n i fuel j mark).getD v false = true → ¬ v.Prime := by
  intro fuel
  induction fuel with
  | zero => intro j mark _ _ hinv v hv h; exact hinv v hv h
  | succ fuel ih =>
    intro j mark hdvd hsq hinv v hv h
    unfold markMultiples at h
    by_cases hj : j ≤ n
    · rw [if_pos hj] at h
      refine ih (j + i) _ ⟨j / i + 1, ?_⟩ (by omega) ?_ v hv h
      · obtain ⟨c, rfl⟩ := hdvd
        rw [Nat.mul_div_cancel_left c (by omega)]
        ring
      · intro w hw hmark
        by_cases hweq : j = w
        · subst hweq
          obtain ⟨c, rfl⟩ := hdvd
          have hc2 : 2 ≤ c :=
            le_trans hi (Nat.le_of_mul_le_mul_left hsq (by omega))
          exact Nat.not_prime_mul (by omega) (by omega)
        · rw [getD_set_other hweq] at hmark
          exact hinv w hw hmark
    · rw [if_neg hj] at h
      exact hinv v hv h

lemma sieveOuter_length (n : Nat) :
    ∀ fuel i mark, (sieveOuter n fuel i mark).length = mark.length := by
  intro fuel
  induction fuel with
  | zero => intro i mark; rfl
  | succ fuel ih =>
    intro i mark
    unfold sieveOuter
    by_cases h : i * i ≤ n
    · rw [if_pos h, ih]
      by_cases hm : mark.getD i false
      · rw [if_pos hm]
      · rw [if_neg hm]
        exact markMultiples_length n i (n + 1) (i * i) mark
    · rw [if_neg h]

lemma sieveOuter_mono (n : Nat) :
    ∀ fuel i mark v, mark.getD v false = true →
      (sieveOuter n fuel i mark).getD v false = true := by
  intro fuel
  induction fuel with
  | zero => intro i mark v h; exact h
  | succ fuel ih =>
    intro i mark v h
    unfold sieveOuter
    by_cases hc : i * i ≤ n
    · rw [if_pos hc]
      refine ih (i + 1) _ v ?_
      by_cases hm : mark.getD i false
      · rw [if_pos hm]; exact h
      · rw [if_neg hm]
        exact markMultiples_mono n i (n + 1) (i * i) mark v h
    · rw [if_neg hc]
      exact h

lemma sieveOuter_sound (n : Nat) :
    ∀ fuel i mark, 2 ≤ i →
      (∀ v, v ≤ n → mark.getD v false = true → ¬ v.Prime) →
      ∀ v, v ≤ n → (sieveOuter n fuel i mark).getD v false = true → ¬ v.Prime := by
  intro fuel
  induction fuel with
  | zero => intro i mark _ hinv v hv h; exact hinv v hv h
  | succ fuel ih =>
    intro i mark hi hinv v hv h
    unfold sieveOuter at h
    by_cases hc : i * i ≤ n
    · rw [if_pos hc] at h
      refine ih (i + 1) _ (by omega) ?_ v hv h
      by_cases hm : mark.getD i false
      · rw [if_pos hm]; exact hinv
      · rw [if_neg hm]
        exact markMultiples_sound n i hi (n + 1) (i * i) mark ⟨i, rfl⟩ (le_refl _) hinv
    · rw [if_neg hc] at h
      exact hinv v hv h

lemma sieveOuter_complete (n : Nat) {p : Nat} (hp : p.Prime) :
    ∀ fuel i mark, mark.length = n + 1 → 2 ≤ i → i ≤ p → p + 1 ≤ i + fuel →
      (∀ v, v ≤ n → mark.getD v false = true → ¬ v.Prime) →
      ∀ v, v ≤ n → p ∣ v → p * p ≤ v →
        (sieveOuter n fuel i mark).getD v false = true := by
  intro fuel
  induction fuel with
  | zero => intro i mark _ _ hip hfuel _ v _ _ _; omega
  | succ fuel ih =>
    intro i mark hlen hi2 hip hfuel hinv v hv hdvd hsq
    unfold sieveOuter
    have hguard : i * i ≤ n := by
      have h1 : i * i ≤ p * p := Nat.mul_le_mul hip hip
      omega
    rw [if_pos hguard]
    by_cases hieq : i = p
    · subst hieq
      have hii : i ≤ i * i := Nat.le_mul_of_pos_left i (by omega)
      have hm : mark.getD i false = false := by
        by_cases hm' : mark.getD i false
        · exact absurd hp (hinv i (by omega) hm')
        · simpa using hm'
      rw [hm]
      simp only [Bool.false_eq_true, if_false]
      refine sieveOuter_mono n fuel (i + 1) _ v ?_
      rw [markMultiples_getD n i (by omega) (n + 1) (i * i) mark hlen (by omega) v hv]
      refine Or.inr ⟨v / i - i, ?_⟩
      obtain ⟨c, rfl⟩ := hdvd
      have hc : i ≤ c := by
        by_contra hcon
        push_neg at hcon
        have : i * c < i * i := Nat.mul_lt_mul_of_le_of_lt (le_refl i) hcon (by omega)
        omega
      rw [Nat.mul_div_cancel_left c (by omega)]
      have hdistrib : i * (c - i) = i * c - i * i := Nat.mul_sub_left_distrib i c i
      rw [hdistrib]
      omega
    · -- i < p: step to i + 1 with the invariant preserved
      have hinv' : ∀ w, w ≤ n →
          (if mark.getD i false then mark
            else markMultiples n i (n + 1) (i * i) mark).getD w false = true → ¬ w.Prime := by
        by_cases hm : mark.getD i false
        · rw [if_pos hm]; exact hinv
        · rw [if_neg hm]
          exact markMultiples_sound n i hi2 (n + 1) (i * i) mark ⟨i, rfl⟩ (le_refl _) hinv
      have hlen' : (if mark.getD i false then mark
          else markMultiples n i (n + 1) (i * i) mark).length = n + 1 := by
        by_cases hm : mark.getD i false
        · rw [if_pos hm]; exact hlen
        · rw [if_neg hm, markMultiples_length]; exact hlen
      exact ih (i + 1) _ hlen' (by omega) (by omega) (by omega) hinv' v hv hdvd hsq

/-- The final mark array classifies compositeness on `[2, n]`. -/
lemma sieve_mark_iff (n v : Nat) (h2 : 2 ≤ v) (hv : v ≤ n) :
    ((sieveOuter n (n + 1) 2 (List.replicate (n + 1) false)).getD v false = true ↔
      ¬ v.Prime) := by
  have hinv0 : ∀ w, w ≤ n → (List.replicate (n + 1) false).getD w false = true → ¬ w.Prime := by
    intro w _ h
    rw [getD_replicate_false] at h
    exact absurd h (by simp)
  constructor
  · intro h
    exact sieveOuter_sound n (n + 1) 2 _ (le_refl 2) hinv0 v hv h
  · intro hnp
    have hv1 : v ≠ 1 := by omega
    have hpf : (v.minFac).Prime := Nat.minFac_prime hv1
    have hdvd : v.minFac ∣ v := Nat.minFac_dvd v
    obtain ⟨c, hc⟩ := hdvd
    have hc1 : c ≠ 1 := by
      intro h1
      rw [h1, Nat.mul_one] at hc
      exact hnp (hc ▸ hpf)
    have hc0 : c ≠ 0 := by
      intro h0
      rw [h0, Nat.mul_zero] at hc
      omega
    have hc' : v = c * v.minFac := by rw [Nat.mul_comm] at hc; exact hc
    have hcm : v.minFac ≤ c := Nat.minFac_le_of_dvd (by omega) ⟨v.minFac, hc'⟩
    have hsq : v.minFac * v.minFac ≤ v := by
      calc v.minFac * v.minFac ≤ v.minFac * c := Nat.mul_le_mul_left _ hcm
        _ = v := hc.symm
    refine sieveOuter_complete n hpf (n + 1) 2 _ ?_ (le_refl 2) hpf.two_le ?_ hinv0 v hv
      (Dvd.intro c hc.symm) hsq
    · rw [List.length_replicate]
    · have : v.minFac ≤ v := Nat.minFac_le (by omega)
      omega

/-- `primes_upto n` contains exactly the primes up to `n`. -/
lemma primes_upto_mem {n p : Nat} : p ∈ primes_upto n ↔ p.Prime ∧ p ≤ n := by
  unfold primes_upto
  by_cases hn : n < 2
  · rw [if_pos hn]
    simp only [List.not_mem_nil, false_iff, not_and]
    intro hp hle
    have := hp.two_le
    omega
  · rw [if_neg hn]
    push_neg at hn
    simp only [List.mem_filter, List.mem_range', Bool.not_eq_eq_eq_not, Bool.not_true]
    constructor
    · rintro ⟨⟨i, hi, rfl⟩, hmark⟩
      have h2 : 2 ≤ 2 + 1 * i := by omega
      have hle : 2 + 1 * i ≤ n := by omega
      constructor
      · by_contra hnp
        have hmt := (sieve_mark_iff n _ h2 hle).2 hnp
        rw [hmark] at hmt
        exact absurd hmt (by simp)
      · exact hle
    · rintro ⟨hp, hle⟩
      have h2 : 2 ≤ p := hp.two_le
      refine ⟨⟨p - 2, by omega, by omega⟩, ?_⟩
      have hiff := sieve_mark_iff n p h2 hle
      by_cases hm : (sieveOuter n (n + 1) 2 (List.replicate (n + 1) false)).getD p false
      · exact absurd hp (hiff.1 hm)
      · simpa using hm

lemma primes_upto_sorted (n : Nat) : (primes_upto n).Pairwise (· < ·) := by
  unfold primes_upto
  by_cases hn : n < 2
  · rw [if_pos hn]
    exact List.Pairwise.nil
  · rw [if_neg hn]
    exact List.Pairwise.filter _ (List.pairwise_lt_range' 2 (n - 1) 1 (by omega))

/-- For `n ≥ 2` the prime list starts with 2. -/
lemma primes_upto_two {n : Nat} (hn : 2 ≤ n) : ∃ t, primes_upto n = 2 :: t := by
  have hmem : 2 ∈ primes_upto n := primes_upto_mem.2 ⟨Nat.prime_two, hn⟩
  have hsorted := primes_upto_sorted n
  cases hlist : primes_upto n with
  | nil => rw [hlist] at hmem; exact absurd hmem (List.not_mem_nil 2)
  | cons h t =>
    rw [hlist] at hmem hsorted
    rcases List.mem_cons.1 hmem with heq | hmemt
    · exact ⟨t, by rw [heq]⟩
    · have hlt : h < 2 := (List.pairwise_cons.1 hsorted).1 2 hmemt
      have hh : h ∈ primes_upto n := by rw [hlist]; exact List.mem_cons_self h t
      have := (primes_upto_mem.1 hh).1.two_le
      omega


/-! ## Pointwise characterization of the sieve passes -/

lemma stripPassAux_length (p off : Nat) (strip : Nat → Nat) :
    ∀ (res : List Nat) (i0 : Nat), (stripPassAux p off strip i0 res).length = res.length := by
  intro res
  induction res with
  | nil => intro i0; rfl
  | cons x xs ih =>
    intro i0
    unfold stripPassAux
    simp only [List.length_cons, ih (i0 + 1)]

lemma stripPassAux_getD (p off : Nat) (strip : Nat → Nat) :
    ∀ (res : List Nat) (i0 v : Nat),
      (stripPassAux p off strip i0 res).getD v 0 =
        if off ≤ i0 + v ∧ (i0 + v - off) % p = 0 ∧ v < res.length
        then strip (res.getD v 0) else res.getD v 0 := by
  intro res
  induction res with
  | nil =>
    intro i0 v
    simp [stripPassAux]
  | cons x xs ih =>
    intro i0 v
    unfold stripPassAux
    cases v with
    | zero =>
      simp only [List.getD_cons_zero, Nat.add_zero, List.length_cons]
      by_cases hc : off ≤ i0 ∧ (i0 - off) % p = 0
      · rw [if_pos hc, if_pos ⟨hc.1, hc.2, by omega⟩]
      · rw [if_neg hc, if_neg (fun h => hc ⟨h.1, h.2.1⟩)]
    | succ w =>
      simp only [List.getD_cons_succ, List.length_cons]
      rw [ih (i0 + 1) w]
      have harith : i0 + 1 + w = i0 + (w + 1) := by omega
      rw [harith]
      by_cases hc : off ≤ i0 + (w + 1) ∧ (i0 + (w + 1) - off) % p = 0 ∧ w < xs.length
      · rw [if_pos hc, if_pos ⟨hc.1, hc.2.1, by omega⟩]
      · rw [if_neg hc, if_neg (fun h => hc ⟨h.1, h.2.1, by omega⟩)]

lemma stripPass_length (p off : Nat) (strip : Nat → Nat) (res : List Nat) :
    (stripPass p off strip res).length = res.length :=
  stripPassAux_length p off strip res 0

lemma stripPass_getD (p off : Nat) (strip : Nat → Nat) (res : List Nat) (i : Nat) :
    (stripPass p off strip res).getD i 0 =
      if off ≤ i ∧ (i - off) % p = 0 ∧ i < res.length
      then strip (res.getD i 0) else res.getD i 0 := by
  have h := stripPassAux_getD p off strip res 0 i
  simpa using h

/-- With a correct carried offset, the loop `for (i = off; i < win; i += p)`
    visits exactly the positions whose value `base + i` is divisible by p. -/
lemma visited_iff {p off base i : Nat} (hp : 0 < p) (hoff : off < p)
    (hdvd : (base + off) % p = 0) :
    (off ≤ i ∧ (i - off) % p = 0) ↔ (base + i) % p = 0 := by
  have h1 : p ∣ base + off := Nat.dvd_iff_mod_eq_zero.2 hdvd
  constructor
  · rintro ⟨hle, hmod⟩
    have h2 : p ∣ i - off := Nat.dvd_iff_mod_eq_zero.2 hmod
    have h3 : p ∣ (base + off) + (i - off) := Nat.dvd_add h1 h2
    have h4 : (base + off) + (i - off) = base + i := by omega
    exact Nat.dvd_iff_mod_eq_zero.1 (h4 ▸ h3)
  · intro hmod
    have h3 : p ∣ base + i := Nat.dvd_iff_mod_eq_zero.2 hmod
    have hle : off ≤ i := by
      by_contra hcon
      push_neg at hcon
      have h5 : p ∣ (base + off) - (base + i) := Nat.dvd_sub' h1 h3
      have h6 : (base + off) - (base + i) = off - i := by omega
      rw [h6] at h5
      have h7 : p ≤ off - i := Nat.le_of_dvd (by omega) h5
      omega
    refine ⟨hle, ?_⟩
    have h5 : p ∣ (base + i) - (base + off) := Nat.dvd_sub' h3 h1
    have h6 : (base + i) - (base + off) = i - off := by omega
    rw [h6] at h5
    exact Nat.dvd_iff_mod_eq_zero.1 h5

/-- The per-prime strip used by the sieve body (both the ctz shortcut and the
    FastDiv loop) removes exactly the factors of `p`. -/
lemma strip_fun_spec {p : Nat} (hp : p.Prime) (hplt : p < U32) (f : FastDivU32)
    (hf : f = fastdiv_u32_make_prime p) (x : Nat) (h1 : 1 ≤ x) (h2 : x < U64) :
    1 ≤ (if p = 2 then strip2 x else stripOdd f x) ∧
    ¬ p ∣ (if p = 2 then strip2 x else stripOdd f x) ∧
    ∃ e, x = p ^ e * (if p = 2 then strip2 x else stripOdd f x) := by
  by_cases hp2 : p = 2
  · subst hp2
    simp only [if_pos rfl]
    obtain ⟨hodd, heq, hpos⟩ := strip2_spec x h1
    refine ⟨hpos, ?_, ctz x, heq⟩
    intro hdvd
    have hz : strip2 x % 2 = 0 := Nat.dvd_iff_mod_eq_zero.1 hdvd
    omega
  · rw [if_neg hp2, hf]
    obtain ⟨ha, hb, hc⟩ := stripOdd_spec hp hplt x h1 h2
    exact ⟨ha, hb, hc⟩

/-- Offset advance (C lines 358-362) is correct: if `off` is the correct
    carried offset for `base`, the advanced offset is correct for
    `base + step`. -/
lemma advance_off_correct {p sm off base step : Nat} (hp : 0 < p) (hsm : sm = step % p)
    (hoff : off < p) (hmod : (base + off) % p = 0) :
    advance_off p sm off < p ∧ (base + step + advance_off p sm off) % p = 0 := by
  have hd1 : p ∣ base + off := Nat.dvd_iff_mod_eq_zero.2 hmod
  have hstep : p * (step / p) + step % p = step := Nat.div_add_mod step p
  have hd2 : p ∣ step - sm := by
    refine ⟨step / p, ?_⟩
    omega
  have hsmle : sm ≤ step := by
    rw [hsm]
    exact Nat.mod_le step p
  have hsmlt : sm < p := by
    rw [hsm]
    exact Nat.mod_lt _ hp
  unfold advance_off
  by_cases hz : sm ≠ 0
  · rw [if_pos hz]
    by_cases hge : off ≥ sm
    · rw [if_pos hge]
      refine ⟨by omega, ?_⟩
      have heq : base + step + (off - sm) = (base + off) + (step - sm) := by omega
      rw [heq]
      exact Nat.dvd_iff_mod_eq_zero.1 (Nat.dvd_add hd1 hd2)
    · rw [if_neg hge]
      push_neg at hge
      refine ⟨by omega, ?_⟩
      have heq : base + step + (off + p - sm) = (base + off) + (step - sm) + p := by omega
      rw [heq]
      exact Nat.dvd_iff_mod_eq_zero.1 (Nat.dvd_add (Nat.dvd_add hd1 hd2) (dvd_refl p))
  · rw [if_neg hz]
    push_neg at hz
    refine ⟨hoff, ?_⟩
    have hd3 : p ∣ step := Nat.dvd_iff_mod_eq_zero.2 (by omega)
    have heq : base + step + off = (base + off) + step := by omega
    rw [heq]
    exact Nat.dvd_iff_mod_eq_zero.1 (Nat.dvd_add hd1 hd3)

lemma zipWith_getD {α β γ : Type} (f : α → β → γ) (dA : α) (dB : β) (dC : γ) :
    ∀ (l1 : List α) (l2 : List β) (pi : Nat), pi < l1.length → pi < l2.length →
      (List.zipWith f l1 l2).getD pi dC = f (l1.getD pi dA) (l2.getD pi dB) := by
  intro l1
  induction l1 with
  | nil => intro l2 pi h1 _; simp at h1
  | cons x xs ih =>
    intro l2 pi h1 h2
    cases l2 with
    | nil => simp at h2
    | cons y ys =>
      cases pi with
      | zero => rfl
      | succ w =>
        simp only [List.zipWith_cons_cons, List.getD_cons_succ]
        exact ih ys w (by simpa using h1) (by simpa using h2)


lemma map_getD {α β : Type} (f : α → β) (dA : α) (dB : β) (hd : f dA = dB) :
    ∀ (l : List α) (pi : Nat), (l.map f).getD pi dB = f (l.getD pi dA) := by
  intro l
  induction l with
  | nil => intro pi; simp [hd.symm]
  | cons x xs ih =>
    intro pi
    cases pi with
    | zero => rfl
    | succ w => simpa using ih w

lemma getD_mem {α : Type} (d : α) :
    ∀ (l : List α) (pi : Nat), pi < l.length → l.getD pi d ∈ l := by
  intro l
  induction l with
  | nil => intro pi h; simp at h
  | cons x xs ih =>
    intro pi h
    cases pi with
    | zero => exact List.mem_cons_self x xs
    | succ w => exact List.mem_cons_of_mem x (ih w (by simpa using h))

lemma sieve_passes_fst_length :
    ∀ (ps : List Nat) (fs : List FastDivU32) (sms offs res : List Nat),
      (sieve_passes ps fs sms offs res).1.length = res.length := by
  intro ps
  induction ps with
  | nil => intro fs sms offs res; rfl
  | cons p ps ih =>
    intro fs sms offs res
    cases fs with
    | nil => rfl
    | cons f fs =>
      cases sms with
      | nil => rfl
      | cons sm sms =>
        cases offs with
        | nil => rfl
        | cons o os =>
          unfold sieve_passes
          simp only []
          rw [ih]
          exact stripPass_length p o _ res

lemma sieve_passes_snd_getD :
    ∀ (ps : List Nat) (fs : List FastDivU32) (sms offs res : List Nat) (pi : Nat),
      ps.length = fs.length → ps.length = sms.length → ps.length = offs.length →
      pi < ps.length →
      (sieve_passes ps fs sms offs res).2.getD pi 0 =
        advance_off (ps.getD pi 0) (sms.getD pi 0) (offs.getD pi 0) := by
  intro ps
  induction ps with
  | nil => intro fs sms offs res pi _ _ _ h; simp at h
  | cons p ps ih =>
    intro fs sms offs res pi h1 h2 h3 hpi
    cases fs with
    | nil => simp at h1
    | cons f fs =>
      cases sms with
      | nil => simp at h2
      | cons sm sms =>
        cases offs with
        | nil => simp at h3
        | cons o os =>
          unfold sieve_passes
          simp only []
          cases pi with
          | zero => rfl
          | succ w =>
            simp only [List.getD_cons_succ]
            exact ih fs sms os _ w (by simpa using h1) (by simpa using h2)
              (by simpa using h3) (by simpa using hpi)

/-- The running residual invariant through the prime passes: position `i`
    holds `base + i` with exactly the primes processed so far (the list `D`)
    fully stripped out. -/
lemma sieve_passes_residual (base : Nat) :
    ∀ (ps : List Nat) (fs : List FastDivU32) (sms offs res D : List Nat),
      base + res.length ≤ U64 →
      ps.length = fs.length → ps.length = sms.length → ps.length = offs.length →
      (∀ pi, pi < ps.length →
        (ps.getD pi 0).Prime ∧ ps.getD pi 0 < U32 ∧
        fs.getD pi ⟨0, 0⟩ = fastdiv_u32_make_prime (ps.getD pi 0) ∧
        offs.getD pi 0 < ps.getD pi 0 ∧
        (base + offs.getD pi 0) % (ps.getD pi 0) = 0) →
      (∀ i, i < res.length → 1 ≤ res.getD i 0 ∧ res.getD i 0 ≤ base + i ∧
        ∀ q, q.Prime → (q ∣ res.getD i 0 ↔ q ∣ (base + i) ∧ q ∉ D)) →
      ∀ i, i < res.length →
        1 ≤ (sieve_passes ps fs sms offs res).1.getD i 0 ∧
        (sieve_passes ps fs sms offs res).1.getD i 0 ≤ base + i ∧
        ∀ q, q.Prime →
          (q ∣ (sieve_passes ps fs sms offs res).1.getD i 0 ↔
            q ∣ (base + i) ∧ q ∉ D ++ ps) := by
  intro ps
  induction ps with
  | nil =>
    intro fs sms offs res D hU _ _ _ _ hres i hi
    obtain ⟨h1, h2, h3⟩ := hres i hi
    refine ⟨h1, h2, fun q hq => ?_⟩
    rw [List.append_nil]
    exact h3 q hq
  | cons p ps ih =>
    intro fs sms offs res D hU h1 h2 h3 hents hres i hi
    cases fs with
    | nil => simp at h1
    | cons f fs =>
      cases sms with
      | nil => simp at h2
      | cons sm sms =>
        cases offs with
        | nil => simp at h3
        | cons o os =>
          obtain ⟨hp, hplt, hfd, hoff, hmod⟩ := hents 0 (by simp)
          simp only [List.getD_cons_zero] at hp hplt hfd hoff hmod
          have hstep : ∀ j, j < res.length →
              1 ≤ (stripPass p o (fun x => if p = 2 then strip2 x else stripOdd f x) res).getD j 0 ∧
              (stripPass p o (fun x => if p = 2 then strip2 x else stripOdd f x) res).getD j 0 ≤ base + j ∧
              ∀ q, q.Prime →
                (q ∣ (stripPass p o (fun x => if p = 2 then strip2 x else stripOdd f x) res).getD j 0 ↔
                  q ∣ (base + j) ∧ q ∉ D ++ [p]) := by
            intro j hj
            obtain ⟨hr1, hr2, hr3⟩ := hres j hj
            have hnotmem : ∀ q : Nat, q ∉ D ++ [p] ↔ q ∉ D ∧ q ≠ p := by
              intro q
              simp [List.mem_append]
            rw [stripPass_getD]
            by_cases hvis : o ≤ j ∧ (j - o) % p = 0 ∧ j < res.length
            · rw [if_pos hvis]
              have hdvdval : (base + j) % p = 0 :=
                (visited_iff hp.pos hoff hmod).1 ⟨hvis.1, hvis.2.1⟩
              have hrU : res.getD j 0 < U64 := by omega
              obtain ⟨hs1, hs2, e, hs3⟩ :=
                strip_fun_spec hp hplt f hfd (res.getD j 0) hr1 hrU
              have hdvdres : (if p = 2 then strip2 (res.getD j 0)
                  else stripOdd f (res.getD j 0)) ∣ res.getD j 0 :=
                Dvd.intro_left (p ^ e) hs3.symm
              refine ⟨hs1, le_trans (Nat.le_of_dvd (by omega) hdvdres) hr2, fun q hq => ?_⟩
              rw [hnotmem q]
              by_cases hqp : q = p
              · subst hqp
                constructor
                · intro h
                  exact absurd h hs2
                · rintro ⟨_, _, hne⟩
                  exact absurd rfl hne
              · rw [stripped_dvd_iff hp hq hqp ⟨e, hs3⟩, hr3 q hq]
                constructor
                · rintro ⟨ha, hb⟩
                  exact ⟨ha, hb, hqp⟩
                · rintro ⟨ha, hb, _⟩
                  exact ⟨ha, hb⟩
            · rw [if_neg hvis]
              refine ⟨hr1, hr2, fun q hq => ?_⟩
              rw [hnotmem q, hr3 q hq]
              constructor
              · rintro ⟨ha, hb⟩
                refine ⟨ha, hb, ?_⟩
                intro hqp
                subst hqp
                have : (base + j) % q = 0 := Nat.dvd_iff_mod_eq_zero.1 ha
                exact hvis ⟨((visited_iff hp.pos hoff hmod).2 this).1,
                  ((visited_iff hp.pos hoff hmod).2 this).2, hj⟩
              · rintro ⟨ha, hb, _⟩
                exact ⟨ha, hb⟩
          have hlen' : (stripPass p o
              (fun x => if p = 2 then strip2 x else stripOdd f x) res).length = res.length :=
            stripPass_length _ _ _ _
          have hout := ih fs sms os _ (D ++ [p]) (by omega)
            (by simpa using h1) (by simpa using h2) (by simpa using h3)
            (fun pi hpi => by
              have := hents (pi + 1) (by simpa using Nat.succ_lt_succ hpi)
              simpa using this)
            (fun j hj => hstep j (by omega))
            i (by omega)
          unfold sieve_passes
          simp only []
          have hassoc : (D ++ [p]) ++ ps = D ++ p :: ps := by
            rw [List.append_assoc]
            rfl
          rw [hassoc] at hout
          exact hout


lemma map_getD_lt {α β : Type} (f : α → β) (dA : α) (dB : β) :
    ∀ (l : List α) (pi : Nat), pi < l.length → (l.map f).getD pi dB = f (l.getD pi dA) := by
  intro l
  induction l with
  | nil => intro pi h; simp at h
  | cons x xs ih =>
    intro pi h
    cases pi with
    | zero => rfl
    | succ w => simpa using ih w (by simpa using h)

lemma range_getD {n i : Nat} (h : i < n) : (List.range n).getD i 0 = i := by
  rw [List.getD_eq_getElem?_getD, List.getElem?_range h]
  rfl

/-- The residual equals 1 exactly on the k-smooth values. -/
lemma residual_one_iff_kSmooth (k r v : Nat) (hv : 1 ≤ v) (hr : 1 ≤ r)
    (hiff : ∀ q, q.Prime → (q ∣ r ↔ q ∣ v ∧ q ∉ primes_upto k)) :
    (r = 1 ↔ kSmooth k v) := by
  constructor
  · intro h1
    intro q hq hqv
    by_contra hgt
    push_neg at hgt
    have hnotmem : q ∉ primes_upto k := by
      intro hmem
      exact absurd (primes_upto_mem.1 hmem).2 (by omega)
    have : q ∣ r := (hiff q hq).2 ⟨hqv, hnotmem⟩
    rw [h1] at this
    have := Nat.le_of_dvd (by omega) this
    have := hq.two_le
    omega
  · intro hsmooth
    rw [Nat.eq_one_iff_not_exists_prime_dvd]
    intro q hq hqr
    obtain ⟨hqv, hqnot⟩ := (hiff q hq).1 hqr
    exact hqnot (primes_upto_mem.2 ⟨hq, hsmooth q hq hqv⟩)

lemma sieve_passes_snd_length :
    ∀ (ps : List Nat) (fs : List FastDivU32) (sms offs res : List Nat),
      ps.length = fs.length → ps.length = sms.length → ps.length = offs.length →
      (sieve_passes ps fs sms offs res).2.length = ps.length := by
  intro ps
  induction ps with
  | nil => intro fs sms offs res _ _ _; rfl
  | cons p ps ih =>
    intro fs sms offs res h1 h2 h3
    cases fs with
    | nil => simp at h1
    | cons f fs =>
      cases sms with
      | nil => simp at h2
      | cons sm sms =>
        cases offs with
        | nil => simp at h3
        | cons o os =>
          unfold sieve_passes
          simp only [List.length_cons]
          rw [ih fs sms os _ (by simpa using h1) (by simpa using h2) (by simpa using h3)]

/-- Well-formedness of the per-prime data in the epoch built by the
    program. -/
lemma epoch_wf_entries (e : Epoch) (hpr : e.primes = primes_upto e.k)
    (hfd : e.fd = e.primes.map fastdiv_u32_make_prime) (hk32 : e.k < U32) :
    ∀ pi, pi < e.primes.length →
      (e.primes.getD pi 0).Prime ∧ e.primes.getD pi 0 < U32 ∧
      e.fd.getD pi ⟨0, 0⟩ = fastdiv_u32_make_prime (e.primes.getD pi 0) := by
  intro pi hpi
  have hmem : e.primes.getD pi 0 ∈ primes_upto e.k := by
    rw [← hpr]
    exact getD_mem 0 e.primes pi hpi
  obtain ⟨hp, hle⟩ := primes_upto_mem.1 hmem
  refine ⟨hp, by omega, ?_⟩
  rw [hfd]
  exact map_getD_lt fastdiv_u32_make_prime 0 ⟨0, 0⟩ e.primes pi hpi

/-- Classification of the tile sieve output (C lines 319-369): bit `i` is
    set iff `base_test + i` is k-smooth. -/
lemma sieve_window_spec (e : Epoch) (hpr : e.primes = primes_upto e.k)
    (hfd : e.fd = e.primes.map fastdiv_u32_make_prime)
    (hsm : e.step_mod.length = e.primes.length) (hk32 : e.k < U32)
    (base sc : Nat) (hbase : 1 ≤ base) (hrange : base + (sc + e.k) ≤ U64)
    (off : List Nat) (hofflen : off.length = e.primes.length)
    (hoff : ∀ pi, pi < e.primes.length →
      off.getD pi 0 < e.primes.getD pi 0 ∧
      (base + off.getD pi 0) % (e.primes.getD pi 0) = 0) :
    (sieve_window_bad_bits_carried_fastdiv e base sc off).1.length = sc + e.k ∧
    ∀ i, i < sc + e.k →
      ((sieve_window_bad_bits_carried_fastdiv e base sc off).1.getD i false = true ↔
        kSmooth e.k (base + i)) := by
  have hreslen : ((List.range (sc + e.k)).map (fun i => base + i)).length = sc + e.k := by
    rw [List.length_map, List.length_range]
  have hres0 : ∀ i, i < sc + e.k →
      ((List.range (sc + e.k)).map (fun i => base + i)).getD i 0 = base + i := by
    intro i hi
    rw [map_getD_lt _ 0 0 _ i (by rw [List.length_range]; exact hi), range_getD hi]
  have hinv0 : ∀ i, i < ((List.range (sc + e.k)).map (fun i => base + i)).length →
      1 ≤ ((List.range (sc + e.k)).map (fun i => base + i)).getD i 0 ∧
      ((List.range (sc + e.k)).map (fun i => base + i)).getD i 0 ≤ base + i ∧
      ∀ q, q.Prime →
        (q ∣ ((List.range (sc + e.k)).map (fun i => base + i)).getD i 0 ↔
          q ∣ (base + i) ∧ q ∉ ([] : List Nat)) := by
    intro i hi
    rw [hreslen] at hi
    rw [hres0 i hi]
    refine ⟨by omega, le_refl _, fun q hq => ?_⟩
    simp
  have hents : ∀ pi, pi < e.primes.length →
      (e.primes.getD pi 0).Prime ∧ e.primes.getD pi 0 < U32 ∧
      e.fd.getD pi ⟨0, 0⟩ = fastdiv_u32_make_prime (e.primes.getD pi 0) ∧
      off.getD pi 0 < e.primes.getD pi 0 ∧
      (base + off.getD pi 0) % (e.primes.getD pi 0) = 0 := by
    intro pi hpi
    obtain ⟨h1, h2, h3⟩ := epoch_wf_entries e hpr hfd hk32 pi hpi
    obtain ⟨h4, h5⟩ := hoff pi hpi
    exact ⟨h1, h2, h3, h4, h5⟩
  have hfdlen : e.primes.length = e.fd.length := by rw [hfd, List.length_map]
  have hmain := sieve_passes_residual base e.primes e.fd e.step_mod off
    ((List.range (sc + e.k)).map (fun i => base + i)) []
    (by rw [hreslen]; omega) hfdlen hsm.symm hofflen.symm hents hinv0
  constructor
  · show (_ : List Bool).length = sc + e.k
    unfold sieve_window_bad_bits_carried_fastdiv
    simp only []
    rw [List.length_map, sieve_passes_fst_length, hreslen]
  · intro i hi
    have hmi := hmain i (by rw [hreslen]; exact hi)
    obtain ⟨hm1, hm2, hm3⟩ := hmi
    unfold sieve_window_bad_bits_carried_fastdiv
    simp only []
    rw [map_getD_lt (fun x => x == 1) 0 false _ i
      (by rw [sieve_passes_fst_length, hreslen]; exact hi)]
    rw [beq_iff_eq]
    refine residual_one_iff_kSmooth e.k _ (base + i) (by omega) hm1 ?_
    intro q hq
    rw [hm3 q hq]
    simp only [List.nil_append]
    rw [hpr]

/-- Offset advance through the tile sieve (C lines 356-362): every carried
    offset correct for `base` comes out correct for `base + step`. -/
lemma sieve_window_offsets (e : Epoch) (hpr : e.primes = primes_upto e.k)
    (hfd : e.fd = e.primes.map fastdiv_u32_make_prime)
    (hsm : e.step_mod.length = e.primes.length)
    (hsmval : ∀ pi, pi < e.primes.length →
      e.step_mod.getD pi 0 = e.step % (e.primes.getD pi 0))
    (hk32 : e.k < U32)
    (base sc : Nat)
    (off : List Nat) (hofflen : off.length = e.primes.length)
    (hoff : ∀ pi, pi < e.primes.length →
      off.getD pi 0 < e.primes.getD pi 0 ∧
      (base + off.getD pi 0) % (e.primes.getD pi 0) = 0) :
    (sieve_window_bad_bits_carried_fastdiv e base sc off).2.length = e.primes.length ∧
    ∀ pi, pi < e.primes.length →
      (sieve_window_bad_bits_carried_fastdiv e base sc off).2.getD pi 0 <
        e.primes.getD pi 0 ∧
      (base + e.step + (sieve_window_bad_bits_carried_fastdiv e base sc off).2.getD pi 0) %
        (e.primes.getD pi 0) = 0 := by
  have hfdlen : e.primes.length = e.fd.length := by rw [hfd, List.length_map]
  constructor
  · unfold sieve_window_bad_bits_carried_fastdiv
    simp only []
    exact sieve_passes_snd_length e.primes e.fd e.step_mod off _ hfdlen hsm.symm hofflen.symm
  · intro pi hpi
    obtain ⟨hp, hplt, _⟩ := epoch_wf_entries e hpr hfd hk32 pi hpi
    obtain ⟨ho1, ho2⟩ := hoff pi hpi
    unfold sieve_window_bad_bits_carried_fastdiv
    simp only []
    rw [sieve_passes_snd_getD e.primes e.fd e.step_mod off _ pi hfdlen hsm.symm
      hofflen.symm hpi]
    exact advance_off_correct hp.pos (hsmval pi hpi) ho1 ho2


/-! ## Worker epoch initialization -/

/-- `worker_init_offsets_for_epoch` computes correct carried offsets for the
    worker's first tile base. -/
lemma worker_init_offsets_correct (e : Epoch) (hpr : e.primes = primes_upto e.k)
    (hfd : e.fd = e.primes.map fastdiv_u32_make_prime) (hk32 : e.k < U32)
    (start_m tid : Nat) (hb : start_m + tid * e.tile_len + 1 < U64) :
    OffOK e (start_m + tid * e.tile_len + 1)
      (worker_init_offsets_for_epoch e start_m tid) := by
  have hfdlen : e.fd.length = e.primes.length := by rw [hfd, List.length_map]
  constructor
  · unfold worker_init_offsets_for_epoch
    simp only []
    rw [List.length_zipWith, hfdlen, Nat.min_self]
  · intro pi hpi
    obtain ⟨hp, hplt, hfdi⟩ := epoch_wf_entries e hpr hfd hk32 pi hpi
    unfold worker_init_offsets_for_epoch
    simp only []
    rw [zipWith_getD _ 0 ⟨0, 0⟩ 0 e.primes e.fd pi hpi (by omega), hfdi]
    by_cases h2 : e.primes.getD pi 0 = 2
    · rw [if_pos h2, h2]
      refine ⟨by omega, by omega⟩
    · rw [if_neg h2]
      have hmod := fastdiv_u32_mod_eq hp hplt (start_m + tid * e.tile_len + 1) hb
      rw [hmod]
      have hppos : 0 < e.primes.getD pi 0 := hp.pos
      have hdm := Nat.div_add_mod (start_m + tid * e.tile_len + 1) (e.primes.getD pi 0)
      have hmlt : (start_m + tid * e.tile_len + 1) % (e.primes.getD pi 0) <
          e.primes.getD pi 0 := Nat.mod_lt _ hppos
      by_cases hr : (start_m + tid * e.tile_len + 1) % (e.primes.getD pi 0) ≠ 0
      · rw [if_pos hr]
        refine ⟨by omega, ?_⟩
        have hd : e.primes.getD pi 0 ∣
            (start_m + tid * e.tile_len + 1) -
              (start_m + tid * e.tile_len + 1) % (e.primes.getD pi 0) :=
          ⟨(start_m + tid * e.tile_len + 1) / (e.primes.getD pi 0), by omega⟩
        have heq : (start_m + tid * e.tile_len + 1) +
            (e.primes.getD pi 0 - (start_m + tid * e.tile_len + 1) % (e.primes.getD pi 0)) =
            ((start_m + tid * e.tile_len + 1) -
              (start_m + tid * e.tile_len + 1) % (e.primes.getD pi 0)) +
              e.primes.getD pi 0 := by
          have := Nat.mod_le (start_m + tid * e.tile_len + 1) (e.primes.getD pi 0)
          omega
        rw [heq]
        exact Nat.dvd_iff_mod_eq_zero.1 (Nat.dvd_add hd (dvd_refl _))
      · rw [if_neg hr]
        push_neg at hr
        refine ⟨hppos, by simpa using hr⟩

/-! ## Window scan characterization -/

lemma countUpto_le (bits : List Bool) (base : Nat) : ∀ k, countUpto bits base k ≤ k := by
  intro k
  induction k with
  | zero => exact le_refl 0
  | succ k ih =>
    unfold countUpto bitget
    by_cases h : bits.getD (base + k) false
    · rw [if_pos h]; omega
    · rw [if_neg h]; omega

lemma countUpto_zero_iff (bits : List Bool) (s : Nat) :
    ∀ k, (countUpto bits s k = 0 ↔ ∀ j, j < k → bits.getD (s + j) false = false) := by
  intro k
  induction k with
  | zero => simp [countUpto]
  | succ k ih =>
    unfold countUpto bitget
    constructor
    · intro h j hj
      have h1 : countUpto bits s k = 0 := by omega
      have h2 : (if bits.getD (s + k) false then 1 else 0) = 0 := by omega
      rcases Nat.lt_or_ge j k with hjk | hjk
      · exact (ih.1 h1) j hjk
      · have hjeq : j = k := by omega
        subst hjeq
        by_cases hb : bits.getD (s + j) false
        · rw [if_pos hb] at h2; omega
        · simpa using hb
    · intro h
      have h1 : countUpto bits s k = 0 := ih.2 (fun j hj => h j (by omega))
      rw [h1, h k (by omega)]
      simp

lemma countUpto_ge_first (bits : List Bool) (s : Nat) :
    ∀ k, 1 ≤ k → bitget bits s ≤ countUpto bits s k := by
  intro k
  induction k with
  | zero => omega
  | succ k ih =>
    intro _
    unfold countUpto
    rcases Nat.eq_zero_or_pos k with h0 | hpos
    · subst h0
      simp [countUpto]
    · have := ih hpos
      omega

/-- The rolling identity: shifting the window by one trades the departing
    bit for the arriving bit. -/
lemma countUpto_roll (bits : List Bool) (s : Nat) (hs : 1 ≤ s) :
    ∀ k, countUpto bits s k + bitget bits (s - 1) =
      countUpto bits (s - 1) k + bitget bits (s + k - 1) := by
  intro k
  induction k with
  | zero =>
    simp only [countUpto, Nat.zero_add, Nat.add_zero]
  | succ k ih =>
    unfold countUpto
    have h1 : s - 1 + k = s + k - 1 := by omega
    have h2 : s + (k + 1) - 1 = s + k := by omega
    rw [h1, h2]
    omega

lemma U32_pos : 0 < U32 := by unfold U32; positivity

/-- The rolling scan returns `m0 + t` for the least `t ≥ s` with a zero
    window count, and the sentinel otherwise. -/
lemma scanRoll_spec (bits : List Bool) (k m0 sc : Nat) (hk : 1 ≤ k) (hk32 : k < U32) :
    ∀ fuel s bad, 1 ≤ s → sc ≤ s + fuel →
      bad = countUpto bits (s - 1) k →
      ((∀ t, s ≤ t → t < sc → countUpto bits t k ≠ 0) →
        scanRoll bits k m0 sc fuel s bad = U64MAX) ∧
      (∀ t, s ≤ t → t < sc → countUpto bits t k = 0 →
        (∀ u, s ≤ u → u < t → countUpto bits u k ≠ 0) →
        scanRoll bits k m0 sc fuel s bad = m0 + t) := by
  intro fuel
  induction fuel with
  | zero =>
    intro s bad hs hsc hbad
    constructor
    · intro _; rfl
    · intro t ht1 ht2 _ _; omega
  | succ fuel ih =>
    intro s bad hs hsc hbad
    unfold scanRoll
    by_cases hguard : s < sc
    · rw [if_pos hguard]
      simp only []
      have hble : bad ≤ k := hbad ▸ countUpto_le bits (s - 1) k
      have hbge : bitget bits (s - 1) ≤ bad :=
        hbad ▸ countUpto_ge_first bits (s - 1) k hk
      have hbg1 : bitget bits (s - 1) ≤ 1 := by
        unfold bitget
        by_cases h : bits.getD (s - 1) false
        · rw [if_pos h]
        · rw [if_neg h]; omega
      have hbg2 : bitget bits (s + k - 1) ≤ 1 := by
        unfold bitget
        by_cases h : bits.getD (s + k - 1) false
        · rw [if_pos h]
        · rw [if_neg h]; omega
      have hU32 : 0 < U32 := U32_pos
      have hkU : k < U32 := hk32
      have hbad1 : (bad + (U32 - bitget bits (s - 1))) % U32 =
          bad - bitget bits (s - 1) := by
        have h1 : bad + (U32 - bitget bits (s - 1)) =
            U32 + (bad - bitget bits (s - 1)) := by omega
        rw [h1, Nat.add_mod_left, Nat.mod_eq_of_lt (by omega)]
      rw [hbad1]
      have hroll := countUpto_roll bits s hs k
      have hbad2 : (bad - bitget bits (s - 1) + bitget bits (s + k - 1)) % U32 =
          countUpto bits s k := by
        have hval : bad - bitget bits (s - 1) + bitget bits (s + k - 1) =
            countUpto bits s k := by
          rw [hbad]
          omega
        rw [hval, Nat.mod_eq_of_lt (lt_of_le_of_lt (countUpto_le bits s k) (by omega))]
      rw [hbad2]
      by_cases hzero : countUpto bits s k = 0
      · rw [if_pos hzero]
        constructor
        · intro hnone
          exact absurd hzero (hnone s (le_refl s) hguard)
        · intro t ht1 ht2 htz hmin
          rcases Nat.lt_or_ge s t with hst | hst
          · exact absurd hzero (hmin s (le_refl s) hst)
          · have : t = s := by omega
            rw [this]
      · rw [if_neg hzero]
        have hih := ih (s + 1) (countUpto bits s k) (by omega) (by omega)
          (by simp)
        constructor
        · intro hnone
          exact hih.1 (fun t ht1 ht2 => hnone t (by omega) ht2)
        · intro t ht1 ht2 htz hmin
          have hts : t ≠ s := fun h => hzero (h ▸ htz)
          exact hih.2 t (by omega) ht2 htz (fun u hu1 hu2 => hmin u (by omega) hu2)
    · rw [if_neg hguard]
      constructor
      · intro _; rfl
      · intro t ht1 ht2 _ _; omega

/-- Characterization of the window scan of lines 387-396: it returns
    `m0 + t` for the least window `t < sc` whose `k` bits are all clear,
    and `UINT64_MAX` when there is none. -/
lemma window_scan_spec (bits : List Bool) (k sc m0 : Nat) (hk : 1 ≤ k)
    (hk32 : k < U32) (hsc : 1 ≤ sc) :
    ((∀ t, t < sc → countUpto bits t k ≠ 0) → window_scan bits k sc m0 = U64MAX) ∧
    (∀ t, t < sc → countUpto bits t k = 0 →
      (∀ u, u < t → countUpto bits u k ≠ 0) →
      window_scan bits k sc m0 = m0 + t) := by
  unfold window_scan
  simp only []
  by_cases h0 : countUpto bits 0 k = 0
  · rw [if_pos h0]
    constructor
    · intro hnone
      exact absurd h0 (hnone 0 hsc)
    · intro t ht htz hmin
      rcases Nat.eq_zero_or_pos t with h | h
      · rw [h]
        omega
      · exact absurd h0 (hmin 0 h)

  · rw [if_neg h0]
    have hspec := scanRoll_spec bits k m0 sc hk hk32 sc 1 (countUpto bits 0 k)
      (le_refl 1) (by omega) (by simp)
    constructor
    · intro hnone
      exact hspec.1 (fun t ht1 ht2 => hnone t ht2)
    · intro t ht htz hmin
      have ht1 : 1 ≤ t := by
        rcases Nat.eq_zero_or_pos t with h | h
        · exact absurd (h ▸ htz) h0
        · exact h
      exact hspec.2 t ht1 ht htz (fun u hu1 hu2 => hmin u hu2)


/-! ## The count == k convention (spec OQ1) -/

lemma countUpto_k_iff (bits : List Bool) (s : Nat) :
    ∀ k, (countUpto bits s k = k ↔ ∀ j, j < k → bits.getD (s + j) false = true) := by
  intro k
  induction k with
  | zero => simp [countUpto]
  | succ k ih =>
    have hle : countUpto bits s k ≤ k := countUpto_le bits s k
    unfold countUpto bitget
    by_cases hb : bits.getD (s + k) false
    · rw [if_pos hb]
      constructor
      · intro h j hj
        rcases Nat.lt_or_ge j k with hjk | hjk
        · exact (ih.1 (by omega)) j hjk
        · have : j = k := by omega
          subst this
          exact hb
      · intro h
        have h1 : countUpto bits s k = k := ih.2 (fun j hj => h j (by omega))
        omega
    · rw [if_neg hb]
      constructor
      · intro h
        omega
      · intro h
        exact absurd (h k (by omega)) hb

/-- The count == k rolling scanner: least `t ≥ s` whose window count is `k`,
    sentinel otherwise. -/
lemma scanRollK_spec (bits : List Bool) (k m0 sc : Nat) (hk : 1 ≤ k) (hk32 : k < U32) :
    ∀ fuel s bad, 1 ≤ s → sc ≤ s + fuel →
      bad = countUpto bits (s - 1) k →
      ((∀ t, s ≤ t → t < sc → countUpto bits t k ≠ k) →
        scanRollK bits k m0 sc fuel s bad = U64MAX) ∧
      (∀ t, s ≤ t → t < sc → countUpto bits t k = k →
        (∀ u, s ≤ u → u < t → countUpto bits u k ≠ k) →
        scanRollK bits k m0 sc fuel s bad = m0 + t) := by
  intro fuel
  induction fuel with
  | zero =>
    intro s bad hs hsc hbad
    constructor
    · intro _; rfl
    · intro t ht1 ht2 _ _; omega
  | succ fuel ih =>
    intro s bad hs hsc hbad
    unfold scanRollK
    by_cases hguard : s < sc
    · rw [if_pos hguard]
      simp only []
      have hble : bad ≤ k := hbad ▸ countUpto_le bits (s - 1) k
      have hbge : bitget bits (s - 1) ≤ bad :=
        hbad ▸ countUpto_ge_first bits (s - 1) k hk
      have hbg2 : bitget bits (s + k - 1) ≤ 1 := by
        unfold bitget
        by_cases h : bits.getD (s + k - 1) false
        · rw [if_pos h]
        · rw [if_neg h]; omega
      have hbad1 : (bad + (U32 - bitget bits (s - 1))) % U32 =
          bad - bitget bits (s - 1) := by
        have hU32 : 0 < U32 := U32_pos
        have h1 : bad + (U32 - bitget bits (s - 1)) =
            U32 + (bad - bitget bits (s - 1)) := by omega
        rw [h1, Nat.add_mod_left, Nat.mod_eq_of_lt (by omega)]
      rw [hbad1]
      have hroll := countUpto_roll bits s hs k
      have hbad2 : (bad - bitget bits (s - 1) + bitget bits (s + k - 1)) % U32 =
          countUpto bits s k := by
        have hval : bad - bitget bits (s - 1) + bitget bits (s + k - 1) =
            countUpto bits s k := by
          rw [hbad]
          omega
        rw [hval, Nat.mod_eq_of_lt (lt_of_le_of_lt (countUpto_le bits s k) (by omega))]
      rw [hbad2]
      by_cases hzero : countUpto bits s k = k
      · rw [if_pos hzero]
        constructor
        · intro hnone
          exact absurd hzero (hnone s (le_refl s) hguard)
        · intro t ht1 ht2 htz hmin
          rcases Nat.lt_or_ge s t with hst | hst
          · exact absurd hzero (hmin s (le_refl s) hst)
          · have : t = s := by omega
            rw [this]
      · rw [if_neg hzero]
        have hih := ih (s + 1) (countUpto bits s k) (by omega) (by omega)
          (by simp)
        constructor
        · intro hnone
          exact hih.1 (fun t ht1 ht2 => hnone t (by omega) ht2)
        · intro t ht1 ht2 htz hmin
          have hts : t ≠ s := fun h => hzero (h ▸ htz)
          exact hih.2 t (by omega) ht2 htz (fun u hu1 hu2 => hmin u (by omega) hu2)
    · rw [if_neg hguard]
      constructor
      · intro _; rfl
      · intro t ht1 ht2 _ _; omega

lemma window_scan_count_k_spec (bits : List Bool) (k sc m0 : Nat) (hk : 1 ≤ k)
    (hk32 : k < U32) (hsc : 1 ≤ sc) :
    ((∀ t, t < sc → countUpto bits t k ≠ k) → window_scan_count_k bits k sc m0 = U64MAX) ∧
    (∀ t, t < sc → countUpto bits t k = k →
      (∀ u, u < t → countUpto bits u k ≠ k) →
      window_scan_count_k bits k sc m0 = m0 + t) := by
  unfold window_scan_count_k
  simp only []
  by_cases h0 : countUpto bits 0 k = k
  · rw [if_pos h0]
    constructor
    · intro hnone
      exact absurd h0 (hnone 0 hsc)
    · intro t ht htz hmin
      rcases Nat.eq_zero_or_pos t with h | h
      · rw [h]
        omega
      · exact absurd h0 (hmin 0 h)
  · rw [if_neg h0]
    have hspec := scanRollK_spec bits k m0 sc hk hk32 sc 1 (countUpto bits 0 k)
      (le_refl 1) (by omega) (by simp)
    constructor
    · intro hnone
      exact hspec.1 (fun t ht1 ht2 => hnone t ht2)
    · intro t ht htz hmin
      have ht1 : 1 ≤ t := by
        rcases Nat.eq_zero_or_pos t with h | h
        · exact absurd (h ▸ htz) h0
        · exact h
      exact hspec.2 t ht1 ht htz (fun u hu1 hu2 => hmin u hu2)

/-- Complementing the bit array swaps a zero window count for a full one. -/
lemma count_not_eq_k_iff (bits : List Bool) (k s : Nat) (hlen : s + k ≤ bits.length) :
    (countUpto (bits.map (fun b => !b)) s k = k ↔ countUpto bits s k = 0) := by
  rw [countUpto_k_iff, countUpto_zero_iff]
  constructor
  · intro h j hj
    have := h j hj
    rw [map_getD_lt (fun b => !b) false false bits (s + j) (by omega)] at this
    by_cases hb : bits.getD (s + j) false
    · rw [hb] at this
      simp at this
    · simpa using hb
  · intro h j hj
    rw [map_getD_lt (fun b => !b) false false bits (s + j) (by omega), h j hj]
    rfl

/-! ## try_set_best -/

/-- `try_set_best` preserves the E1 invariant and never raises either
    atomic. -/
lemma try_set_best_spec (k start_m end_m : Nat) (hend : end_m < U64MAX)
    (m : Nat) (st : Nat × Nat) (hst : StOK k start_m end_m st)
    (hm : BadWin k m) (h1 : start_m ≤ m) (h2 : m ≤ end_m) :
    StOK k start_m end_m (try_set_best m st) ∧
    (try_set_best m st).1 ≤ st.1 ∧ (try_set_best m st).1 ≤ m ∧
    (try_set_best m st).2 ≤ st.2 := by
  unfold try_set_best
  by_cases hge : m ≥ st.1
  · rw [if_pos hge]
    exact ⟨hst, le_refl _, by omega, le_refl _⟩
  · rw [if_neg hge]
    push_neg at hge
    simp only []
    have hnl : (if m = 0 then 0 else m - 1) = m - 1 := by
      rcases Nat.eq_zero_or_pos m with h | h
      · rw [if_pos h, h]
      · rw [if_neg (by omega)]
    rw [hnl]
    have hlim : (if m - 1 ≥ st.2 then st.2 else m - 1) = m - 1 := by
      rcases hst with ⟨hs1, hs2⟩ | ⟨hs1, hs2, hs3, hs4⟩
      · by_cases hc : m - 1 ≥ st.2
        · rw [if_pos hc]
          omega
        · rw [if_neg hc]
      · by_cases hc : m - 1 ≥ st.2
        · rw [if_pos hc]
          omega
        · rw [if_neg hc]
    rw [hlim]
    refine ⟨Or.inr ⟨h1, h2, hm, rfl⟩, by omega, by omega, ?_⟩
    rcases hst with ⟨hs1, hs2⟩ | ⟨hs1, hs2, hs3, hs4⟩
    · omega
    · omega


/-- The code's convention (hit = window count of set bits equals 0) agrees
    with the properly normalized convention (complement the bits, hit =
    window count equals k). -/
lemma scan_conventions_equiv (bits : List Bool) (k sc m0 : Nat) (hk : 1 ≤ k)
    (hk32 : k < U32) (hsc : 1 ≤ sc) (hlen : sc + k ≤ bits.length) :
    window_scan_count_k (bits.map (fun b => !b)) k sc m0 = window_scan bits k sc m0 := by
  have hiff : ∀ t, t < sc →
      (countUpto (bits.map (fun b => !b)) t k = k ↔ countUpto bits t k = 0) := by
    intro t ht
    exact count_not_eq_k_iff bits k t (by omega)
  by_cases hex : ∃ t, t < sc ∧ countUpto bits t k = 0
  · have t0 := Nat.find hex
    obtain ⟨hlt, hzero⟩ := Nat.find_spec hex
    have hmin : ∀ u, u < Nat.find hex → countUpto bits u k ≠ 0 := by
      intro u hu hz
      exact Nat.find_min hex hu ⟨by omega, hz⟩
    have h1 := (window_scan_spec bits k sc m0 hk hk32 hsc).2 (Nat.find hex) hlt hzero hmin
    have h2 := (window_scan_count_k_spec (bits.map (fun b => !b)) k sc m0 hk hk32 hsc).2
      (Nat.find hex) hlt ((hiff _ hlt).2 hzero)
      (fun u hu hz => hmin u hu ((hiff u (by omega)).1 hz))
    rw [h1, h2]
  · push_neg at hex
    have h1 := (window_scan_spec bits k sc m0 hk hk32 hsc).1 (fun t ht => hex t ht)
    have h2 := (window_scan_count_k_spec (bits.map (fun b => !b)) k sc m0 hk hk32 hsc).1
      (fun t ht hz => hex t ht ((hiff t ht).1 hz))
    rw [h1, h2]

/-! ## Tile scan: sieve plus window scan -/

/-- Full characterization of one tile scan: offsets advance to the next tile
    of this worker, and the returned value is the least `m0 + t` with
    `t < start_count` whose window `m0+t+1 .. m0+t+k` is entirely
    non-k-smooth, or the sentinel if there is none. -/
lemma scan_tile_spec (e : Epoch) (hwf : EpochWF e) (hk : 1 ≤ e.k)
    (m0 sc : Nat) (hsc1 : 1 ≤ sc) (hsck : sc + e.k < U32)
    (hrange : m0 + 1 + (sc + e.k) ≤ U64)
    (off : List Nat) (hoff : OffOK e (m0 + 1) off) :
    OffOK e (m0 + 1 + e.step) (scan_tile_find_m_carried_fastdiv e m0 sc off).2 ∧
    ((∀ t, t < sc → ¬ BadWin e.k (m0 + t)) →
      (scan_tile_find_m_carried_fastdiv e m0 sc off).1 = U64MAX) ∧
    (∀ t, t < sc → BadWin e.k (m0 + t) →
      (∀ u, u < t → ¬ BadWin e.k (m0 + u)) →
      (scan_tile_find_m_carried_fastdiv e m0 sc off).1 = m0 + t) := by
  obtain ⟨hpr, hfd, hsml, hsmv, hk32⟩ := hwf
  obtain ⟨hofflen, hoffp⟩ := hoff
  have hk32' : e.k < U32 := hk32
  have hguard1 : ¬ (sc = 0) := by omega
  have hwl : (sc + e.k) % U32 = sc + e.k := Nat.mod_eq_of_lt hsck
  have hguard2 : ¬ ((sc + e.k) % U32 < e.k) := by
    rw [hwl]
    omega
  have hbits := sieve_window_spec e hpr hfd hsml hk32' (m0 + 1) sc (by omega)
    (by omega) off hofflen hoffp
  have hoffout := sieve_window_offsets e hpr hfd hsml hsmv hk32' (m0 + 1) sc off
    hofflen hoffp
  have hunfold : scan_tile_find_m_carried_fastdiv e m0 sc off =
      (window_scan (sieve_window_bad_bits_carried_fastdiv e (m0 + 1) sc off).1 e.k sc m0,
        (sieve_window_bad_bits_carried_fastdiv e (m0 + 1) sc off).2) := by
    unfold scan_tile_find_m_carried_fastdiv
    rw [if_neg hguard1, if_neg hguard2]
  rw [hunfold]
  have hwin : ∀ t, t < sc →
      (countUpto (sieve_window_bad_bits_carried_fastdiv e (m0 + 1) sc off).1 t e.k = 0 ↔
        BadWin e.k (m0 + t)) := by
    intro t ht
    rw [countUpto_zero_iff]
    constructor
    · intro h j hj1 hj2
      have hidx : t + (j - 1) < sc + e.k := by omega
      have hbit := h (j - 1) (by omega)
      have hchar := hbits.2 (t + (j - 1)) hidx
      have harith : m0 + 1 + (t + (j - 1)) = m0 + t + j := by omega
      rw [harith] at hchar
      intro hsm
      rw [hchar.2 hsm] at hbit
      simp at hbit
    · intro h j hj
      have hidx : t + j < sc + e.k := by omega
      have hchar := hbits.2 (t + j) hidx
      have harith : m0 + 1 + (t + j) = m0 + t + (j + 1) := by omega
      rw [harith] at hchar
      have hns := h (j + 1) (by omega) (by omega)
      by_cases hb : (sieve_window_bad_bits_carried_fastdiv e (m0 + 1) sc off).1.getD
          (t + j) false
      · exact absurd (hchar.1 hb) hns
      · simpa using hb
  refine ⟨?_, ?_, ?_⟩
  · have heq : m0 + 1 + e.step = m0 + 1 + e.step := rfl
    exact ⟨hoffout.1, hoffout.2⟩
  · intro hnone
    exact (window_scan_spec _ e.k sc m0 hk hk32' hsc1).1
      (fun t ht hz => hnone t ht ((hwin t ht).1 hz))
  · intro t ht hbad hmin
    exact (window_scan_spec _ e.k sc m0 hk hk32' hsc1).2 t ht
      ((hwin t ht).2 hbad)
      (fun u hu hz => hmin u hu ((hwin u (by omega)).1 hz))


/-! ## Worker tile loop -/

/-- Main worker-loop invariant: the state invariant is preserved, `best_m`
    never increases, and on exit `best_m` is at most every hit lying in any
    of this worker's remaining tiles. -/
lemma worker_loop_spec (e : Epoch) (hwf : EpochWF e) (hk : 1 ≤ e.k)
    (htl : 1 ≤ e.tile_len)
    (start_m end_m : Nat) (hend : end_m < U64MAX)
    (hbig : end_m + 1 + (e.tile_len + e.k) ≤ U64)
    (hscw : e.tile_len + e.k < U32) :
    ∀ fuel base off st,
      start_m ≤ base →
      end_m < base + fuel * e.step →
      OffOK e (base + 1) off →
      StOK e.k start_m end_m st →
      StOK e.k start_m end_m (worker_loop e fuel base off st) ∧
      (worker_loop e fuel base off st).1 ≤ st.1 ∧
      ∀ m j, BadWin e.k m → m ≤ end_m →
        base + j * e.step ≤ m → m < base + j * e.step + e.tile_len →
        (worker_loop e fuel base off st).1 ≤ m := by
  intro fuel
  induction fuel with
  | zero =>
    intro base off st hsb hfuel hoff hst
    refine ⟨hst, le_refl _, ?_⟩
    intro m j hbad hm h1 h2
    have hj : 0 ≤ j * e.step := Nat.zero_le _
    simp only [Nat.zero_mul, Nat.add_zero] at hfuel
    omega
  | succ fuel ih =>
    intro base off st hsb hfuel hoff hst
    unfold worker_loop
    by_cases hexit : base > st.2
    · rw [if_pos hexit]
      refine ⟨hst, le_refl _, ?_⟩
      intro m j hbad hm h1 h2
      have hj : 0 ≤ j * e.step := Nat.zero_le _
      rcases hst with ⟨hs1, hs2⟩ | ⟨hs1, hs2, hs3, hs4⟩
      · omega
      · omega
    · rw [if_neg hexit]
      push_neg at hexit
      simp only []
      have hlim_le : st.2 ≤ end_m := by
        rcases hst with ⟨_, hs2⟩ | ⟨hs1, hs2, _, hs4⟩
        · omega
        · omega
      obtain ⟨sc, hscdef⟩ :
          ∃ sc, (if st.2 - base + 1 ≥ e.tile_len then e.tile_len else st.2 - base + 1) = sc :=
        ⟨_, rfl⟩
      rw [hscdef]
      have hsc1 : 1 ≤ sc := by
        rw [← hscdef]
        by_cases hc : st.2 - base + 1 ≥ e.tile_len
        · rw [if_pos hc]; omega
        · rw [if_neg hc]; omega
      have hsc_tl : sc ≤ e.tile_len := by
        rw [← hscdef]
        by_cases hc : st.2 - base + 1 ≥ e.tile_len
        · rw [if_pos hc]
        · rw [if_neg hc]; omega
      have hsc_le : base + sc ≤ st.2 + 1 := by
        rw [← hscdef]
        by_cases hc : st.2 - base + 1 ≥ e.tile_len
        · rw [if_pos hc]; omega
        · rw [if_neg hc]; omega
      have hsc_cov : ∀ t, base + t ≤ st.2 → t < e.tile_len → t < sc := by
        intro t h1 h2
        rw [← hscdef]
        by_cases hc : st.2 - base + 1 ≥ e.tile_len
        · rw [if_pos hc]; omega
        · rw [if_neg hc]; omega
      have hstep1 : 1 ≤ e.step ∨ e.step = 0 := by omega
      have hscan := scan_tile_spec e hwf hk base sc hsc1
        (by omega) (by omega) off hoff
      obtain ⟨hoffadv, hnone, hsome⟩ := hscan
      have hoffadv' : OffOK e (base + e.step + 1)
          (scan_tile_find_m_carried_fastdiv e base sc off).2 := by
        have harith : base + 1 + e.step = base + e.step + 1 := by omega
        rw [harith] at hoffadv
        exact hoffadv
      have hfuel' : end_m < base + e.step + fuel * e.step := by
        have harith : (fuel + 1) * e.step = e.step + fuel * e.step := by ring
        omega
      by_cases hex : ∃ t, t < sc ∧ BadWin e.k (base + t)
      · obtain ⟨t, htmem, htmin⟩ :=
          wellFounded_lt.has_min {t | t < sc ∧ BadWin e.k (base + t)} hex
        obtain ⟨htlt, htbad⟩ := htmem
        have hminu : ∀ u, u < t → ¬ BadWin e.k (base + u) := by
          intro u hu hubad
          exact htmin u ⟨by omega, hubad⟩ hu
        have hfound : (scan_tile_find_m_carried_fastdiv e base sc off).1 = base + t :=
          hsome t htlt htbad hminu
        have hfne : (scan_tile_find_m_carried_fastdiv e base sc off).1 ≠ U64MAX := by
          rw [hfound]
          omega
        rw [if_pos hfne, hfound]
        have htsb := try_set_best_spec e.k start_m end_m hend (base + t) st hst htbad
          (by omega) (by omega)
        obtain ⟨hst1, hm1, hm2, hm3⟩ := htsb
        have hih := ih (base + e.step) (scan_tile_find_m_carried_fastdiv e base sc off).2
          (try_set_best (base + t) st) (by omega) hfuel' hoffadv' hst1
        obtain ⟨hih1, hih2, hih3⟩ := hih
        refine ⟨hih1, le_trans hih2 hm1, ?_⟩
        intro m j hbad hm h1 h2
        cases j with
        | zero =>
          simp only [Nat.zero_mul, Nat.add_zero] at h1 h2
          by_cases htm : m - base < sc
          · have hmm : t ≤ m - base := by
              by_contra hcon
              push_neg at hcon
              refine hminu (m - base) hcon ?_
              have : base + (m - base) = m := by omega
              rw [this]
              exact hbad
            calc (worker_loop e fuel (base + e.step)
                  (scan_tile_find_m_carried_fastdiv e base sc off).2
                  (try_set_best (base + t) st)).1
                ≤ (try_set_best (base + t) st).1 := hih2
              _ ≤ base + t := hm2
              _ ≤ m := by omega
          · push_neg at htm
            have hmgt : st.2 < m := by
              by_contra hcon
              push_neg at hcon
              exact absurd (hsc_cov (m - base) (by omega) (by omega)) (by omega)
            rcases hst with ⟨hs1, hs2⟩ | ⟨hs1, hs2, hs3, hs4⟩
            · omega
            · calc (worker_loop e fuel (base + e.step)
                    (scan_tile_find_m_carried_fastdiv e base sc off).2
                    (try_set_best (base + t) st)).1
                  ≤ (try_set_best (base + t) st).1 := hih2
                _ ≤ st.1 := hm1
                _ ≤ m := by omega
        | succ j' =>
          refine hih3 m j' hbad hm ?_ ?_
          · have harith : base + (j' + 1) * e.step = base + e.step + j' * e.step := by ring
            omega
          · have harith : base + (j' + 1) * e.step = base + e.step + j' * e.step := by ring
            omega
      · push_neg at hex
        have hnone' : ∀ t, t < sc → ¬ BadWin e.k (base + t) := fun t ht => hex t ht
        have hfound : (scan_tile_find_m_carried_fastdiv e base sc off).1 = U64MAX :=
          hnone hnone'
        rw [hfound]
        simp only [ne_eq, not_true_eq_false, if_false, ite_not]
        have hih := ih (base + e.step) (scan_tile_find_m_carried_fastdiv e base sc off).2
          st (by omega) hfuel' hoffadv' hst
        obtain ⟨hih1, hih2, hih3⟩ := hih
        refine ⟨hih1, hih2, ?_⟩
        intro m j hbad hm h1 h2
        cases j with
        | zero =>
          simp only [Nat.zero_mul, Nat.add_zero] at h1 h2
          by_cases htm : m - base < sc
          · exfalso
            refine hnone' (m - base) htm ?_
            have : base + (m - base) = m := by omega
            rw [this]
            exact hbad
          · push_neg at htm
            have hmgt : st.2 < m := by
              by_contra hcon
              push_neg at hcon
              exact absurd (hsc_cov (m - base) (by omega) (by omega)) (by omega)
            rcases hst with ⟨hs1, hs2⟩ | ⟨hs1, hs2, hs3, hs4⟩
            · omega
            · exact le_trans hih2 (by omega)
        | succ j' =>
          refine hih3 m j' hbad hm ?_ ?_
          · have harith : base + (j' + 1) * e.step = base + e.step + j' * e.step := by ring
            omega
          · have harith : base + (j' + 1) * e.step = base + e.step + j' * e.step := by ring
            omega


/-! ## Epoch: all workers -/

/-- Partial fold over workers `0, ..., t-1`: the state invariant holds and
    `best_m` is at most every hit covered by one of the processed workers'
    tiles. -/
lemma epoch_fold_spec (e : Epoch) (hwf : EpochWF e) (hk : 1 ≤ e.k)
    (htl : 1 ≤ e.tile_len) (tc : Nat) (htc : 1 ≤ tc)
    (hstep_eq : e.step = e.tile_len * tc)
    (start_m end_m : Nat) (hend : end_m < U64MAX)
    (hbig : end_m + 1 + (e.tile_len + e.k) ≤ U64)
    (hscw : e.tile_len + e.k < U32)
    (hinit : start_m + tc * e.tile_len + 1 ≤ U64) :
    ∀ t, t ≤ tc →
      StOK e.k start_m end_m ((List.range t).foldl
        (fun st tid =>
          worker_loop e (end_m + 1) (start_m + tid * e.tile_len)
            (worker_init_offsets_for_epoch e start_m tid) st)
        (U64MAX, end_m)) ∧
      ∀ m, BadWin e.k m → m ≤ end_m →
        ∀ tid, tid < t → ∀ j,
          start_m + tid * e.tile_len + j * e.step ≤ m →
          m < start_m + tid * e.tile_len + j * e.step + e.tile_len →
          ((List.range t).foldl
            (fun st tid =>
              worker_loop e (end_m + 1) (start_m + tid * e.tile_len)
                (worker_init_offsets_for_epoch e start_m tid) st)
            (U64MAX, end_m)).1 ≤ m := by
  obtain ⟨hpr, hfd, hsml, hsmv, hk32⟩ := hwf
  have hstep1 : 1 ≤ e.step := by
    rw [hstep_eq]
    exact Nat.mul_pos (by omega) (by omega)
  intro t
  induction t with
  | zero =>
    intro ht
    constructor
    · exact Or.inl ⟨rfl, rfl⟩
    · intro m _ _ tid htid
      omega
  | succ t iht =>
    intro ht
    obtain ⟨hstok, hcov⟩ := iht (by omega)
    rw [List.range_succ, List.foldl_append, List.foldl_cons, List.foldl_nil]
    have hbt : start_m + t * e.tile_len + 1 < U64 := by
      have h1 : t * e.tile_len ≤ (tc - 1) * e.tile_len :=
        Nat.mul_le_mul_right _ (by omega)
      have h2 : (tc - 1) * e.tile_len + e.tile_len = tc * e.tile_len := by
        have h3 : tc - 1 + 1 = tc := by omega
        calc (tc - 1) * e.tile_len + e.tile_len = (tc - 1 + 1) * e.tile_len := by ring
          _ = tc * e.tile_len := by rw [h3]
      omega
    have hoffinit := worker_init_offsets_correct e hpr hfd hk32 start_m t hbt
    have hfuel : end_m < start_m + t * e.tile_len + (end_m + 1) * e.step := by
      have h1 : end_m + 1 ≤ (end_m + 1) * e.step := Nat.le_mul_of_pos_right _ (by omega)
      omega
    have hworker := worker_loop_spec e ⟨hpr, hfd, hsml, hsmv, hk32⟩ hk htl
      start_m end_m hend hbig hscw (end_m + 1) (start_m + t * e.tile_len)
      (worker_init_offsets_for_epoch e start_m t)
      ((List.range t).foldl
        (fun st tid =>
          worker_loop e (end_m + 1) (start_m + tid * e.tile_len)
            (worker_init_offsets_for_epoch e start_m tid) st)
        (U64MAX, end_m))
      (by omega) hfuel hoffinit hstok
    obtain ⟨hw1, hw2, hw3⟩ := hworker
    refine ⟨hw1, ?_⟩
    intro m hbad hm tid htid j h1 h2
    rcases Nat.lt_or_ge tid t with htidt | htidt
    · exact le_trans hw2 (hcov m hbad hm tid htidt j h1 h2)
    · have htideq : tid = t := by omega
      subst htideq
      exact hw3 m j hbad hm h1 h2

/-- One epoch (sequential schedule) computes a state satisfying E1 whose
    `best_m` is a lower bound of every hit in `[start_m, end_m]`. -/
lemma epoch_run_minimal (e : Epoch) (hwf : EpochWF e) (hk : 1 ≤ e.k)
    (htl : 1 ≤ e.tile_len) (tc : Nat) (htc : 1 ≤ tc)
    (hstep_eq : e.step = e.tile_len * tc)
    (start_m end_m : Nat) (hend : end_m < U64MAX)
    (hbig : end_m + 1 + (e.tile_len + e.k) ≤ U64)
    (hscw : e.tile_len + e.k < U32)
    (hinit : start_m + tc * e.tile_len + 1 ≤ U64) :
    StOK e.k start_m end_m (epoch_run e start_m end_m tc) ∧
    ∀ m, start_m ≤ m → m ≤ end_m → BadWin e.k m →
      (epoch_run e start_m end_m tc).1 ≤ m := by
  obtain ⟨h1, h2⟩ := epoch_fold_spec e hwf hk htl tc htc hstep_eq start_m end_m hend
    hbig hscw hinit tc (le_refl tc)
  refine ⟨h1, ?_⟩
  intro m hm1 hm2 hbad
  have htl0 : 0 < e.tile_len := htl
  have hdm := Nat.div_add_mod (m - start_m) e.tile_len
  have hmlt : (m - start_m) % e.tile_len < e.tile_len := Nat.mod_lt _ htl0
  have hdm2 := Nat.mod_add_div ((m - start_m) / e.tile_len) tc
  have hkey : ((m - start_m) / e.tile_len % tc) * e.tile_len +
      (m - start_m) / e.tile_len / tc * e.step =
      (m - start_m) / e.tile_len * e.tile_len := by
    rw [hstep_eq]
    calc ((m - start_m) / e.tile_len % tc) * e.tile_len +
        (m - start_m) / e.tile_len / tc * (e.tile_len * tc)
        = ((m - start_m) / e.tile_len % tc + tc * ((m - start_m) / e.tile_len / tc)) *
            e.tile_len := by ring
      _ = (m - start_m) / e.tile_len * e.tile_len := by rw [hdm2]
  have hcomm : e.tile_len * ((m - start_m) / e.tile_len) =
      (m - start_m) / e.tile_len * e.tile_len := by ring
  exact h2 m hbad hm2 ((m - start_m) / e.tile_len % tc) (Nat.mod_lt _ (by omega))
    ((m - start_m) / e.tile_len / tc) (by omega) (by omega)


/-! ## Well-formedness of the program-built epoch -/

lemma mk_epoch_k (k tl tc : Nat) : (mk_epoch k tl tc).k = k := rfl

lemma mk_epoch_tile_len (k tl tc : Nat) : (mk_epoch k tl tc).tile_len = tl := rfl

lemma mk_epoch_step (k tl tc : Nat) : (mk_epoch k tl tc).step = tl * tc := rfl

lemma mk_epoch_primes (k tl tc : Nat) : (mk_epoch k tl tc).primes = primes_upto k := rfl

lemma mk_epoch_wf (k tl tc : Nat) (hk32 : k < U32) (hstep : tl * tc < U64) :
    EpochWF (mk_epoch k tl tc) := by
  refine ⟨rfl, rfl, ?_, ?_, hk32⟩
  · show (List.map _ (primes_upto k)).length = (primes_upto k).length
    rw [List.length_map]
  · intro pi hpi
    show (List.map _ (primes_upto k)).getD pi 0 = (tl * tc) % ((primes_upto k).getD pi 0)
    have hpi' : pi < (primes_upto k).length := hpi
    rw [map_getD_lt _ 0 0 _ pi hpi']
    have hmem : (primes_upto k).getD pi 0 ∈ primes_upto k := getD_mem 0 _ pi hpi'
    obtain ⟨hp, hle⟩ := primes_upto_mem.1 hmem
    by_cases h2 : (primes_upto k).getD pi 0 = 2
    · rw [if_pos h2, h2]
    · rw [if_neg h2]
      exact fastdiv_u32_mod_eq hp (by omega) _ hstep

/-! ## The specification-side smoothness checker -/

lemma stripDivF_of_not_dvd {d x : Nat} (h : ¬ d ∣ x) :
    ∀ fuel, stripDivF d fuel x = x := by
  intro fuel
  cases fuel with
  | zero => rfl
  | succ fuel =>
    unfold stripDivF
    rw [if_neg (fun hc => h hc.2.2)]

/-- Folding the per-divisor strip over `[start, start+len)` in ascending
    order removes exactly the primes below `start + len`, provided the
    primes below `start` are already gone. -/
lemma stripFold_spec : ∀ (len start x : Nat), 1 ≤ x → 2 ≤ start →
    (∀ q, q.Prime → q < start → ¬ q ∣ x) →
    1 ≤ (List.range' start len).foldl (fun a d => stripDivF d a a) x ∧
    ∀ q, q.Prime →
      (q ∣ (List.range' start len).foldl (fun a d => stripDivF d a a) x ↔
        q ∣ x ∧ start + len ≤ q) := by
  intro len
  induction len with
  | zero =>
    intro start x hx hs hbelow
    simp only [List.range', List.foldl_nil]
    refine ⟨hx, fun q hq => ?_⟩
    constructor
    · intro h
      refine ⟨h, ?_⟩
      by_contra hc
      push_neg at hc
      exact hbelow q hq (by omega) h
    · intro h
      exact h.1
  | succ len ih =>
    intro start x hx hs hbelow
    rw [List.range'_succ, List.foldl_cons]
    by_cases hsp : start.Prime
    · -- a genuine full strip of the prime `start`
      obtain ⟨h1, h2, e, h3⟩ := stripDivF_spec hs x x hx (le_refl x)
      have hbelow' : ∀ q, q.Prime → q < start + 1 → ¬ q ∣ stripDivF start x x := by
        intro q hq hlt hdvd
        by_cases hqs : q = start
        · exact h2 (hqs ▸ hdvd)
        · have hqx : q ∣ x := (stripped_dvd_iff hsp hq hqs ⟨e, h3⟩).1 hdvd
          exact hbelow q hq (by omega) hqx
      obtain ⟨ih1, ih2⟩ := ih (start + 1) (stripDivF start x x) h1 (by omega) hbelow'
      refine ⟨ih1, fun q hq => ?_⟩
      rw [ih2 q hq]
      by_cases hqs : q = start
      · subst hqs
        constructor
        · intro h
          exact absurd (h2) (by exact fun _ => absurd h.1 h2)
        · intro h
          omega
      · rw [stripped_dvd_iff hsp hq hqs ⟨e, h3⟩]
        constructor
        · rintro ⟨ha, hb⟩
          exact ⟨ha, by omega⟩
        · rintro ⟨ha, hb⟩
          refine ⟨ha, ?_⟩
          rcases Nat.lt_or_ge q (start + 1 + len) with h | h
          · omega
          · exact h
    · -- `start` is composite here, so it cannot divide x: the strip is a no-op
      have hnd : ¬ start ∣ x := by
        intro hdvd
        have hs1 : start ≠ 1 := by omega
        have hpf := Nat.minFac_prime hs1
        have hlt : start.minFac < start := by
          rcases Nat.lt_or_ge start.minFac start with h | h
          · exact h
          · exfalso
            have := Nat.minFac_le (show 0 < start by omega)
            have heq : start.minFac = start := by omega
            exact hsp (heq ▸ hpf)
        exact hbelow start.minFac hpf hlt ((Nat.minFac_dvd start).trans hdvd)
      rw [stripDivF_of_not_dvd hnd]
      have hbelow' : ∀ q, q.Prime → q < start + 1 → ¬ q ∣ x := by
        intro q hq hlt
        by_cases hqs : q = start
        · exact absurd (hqs ▸ hq) hsp
        · exact hbelow q hq (by omega)
      obtain ⟨ih1, ih2⟩ := ih (start + 1) x hx (by omega) hbelow'
      refine ⟨ih1, fun q hq => ?_⟩
      rw [ih2 q hq]
      constructor
      · rintro ⟨ha, hb⟩
        exact ⟨ha, by omega⟩
      · rintro ⟨ha, hb⟩
        refine ⟨ha, ?_⟩
        by_cases hqs : q = start
        · exact absurd (hqs ▸ hq) hsp
        · have := hq.two_le
          omega

/-- The decidable checker agrees with the smoothness predicate. -/
lemma smoothB_iff (k x : Nat) (hx : 1 ≤ x) : smoothB k x = true ↔ kSmooth k x := by
  unfold smoothB stripAllUpto
  rw [beq_iff_eq]
  obtain ⟨h1, h2⟩ := stripFold_spec (k - 1) 2 x hx (le_refl 2)
    (fun q hq hlt => absurd hq.two_le (by omega))
  rw [Nat.eq_one_iff_not_exists_prime_dvd]
  constructor
  · intro h q hq hqx
    by_contra hgt
    push_neg at hgt
    have hge : 2 + (k - 1) ≤ q := by
      have := hq.two_le
      omega
    exact h q hq ((h2 q hq).2 ⟨hqx, hge⟩)
  · intro h q hq hqr
    obtain ⟨hqx, hge⟩ := (h2 q hq).1 hqr
    have := hq.two_le
    exact absurd hqx (fun hc => by
      have hle := h q hq hc
      omega)

lemma badWinB_iff (k m : Nat) : badWinB k m = true ↔ BadWin k m := by
  unfold badWinB BadWin
  rw [List.all_eq_true]
  constructor
  · intro h j hj1 hj2
    have hmem : j ∈ List.range' 1 k := by
      rw [List.mem_range']
      exact ⟨j - 1, by omega, by omega⟩
    have := h j hmem
    rw [Bool.not_eq_eq_eq_not, Bool.not_true] at this
    intro hsm
    have := (smoothB_iff k (m + j) (by omega)).2 hsm
    simp_all
  · intro h j hmem
    rw [List.mem_range'] at hmem
    obtain ⟨i, hi, hj⟩ := hmem
    rw [Bool.not_eq_eq_eq_not, Bool.not_true]
    by_cases hb : smoothB k (m + j)
    · exact absurd ((smoothB_iff k (m + j) (by omega)).1 hb) (h j (by omega) (by omega))
    · simpa using hb

/-- Concrete minimality checks for the end-to-end run: the decidable facts
    imply the least-solution characterization. -/
lemma badWin_min_of_b (k v : Nat) (h1 : badWinB k v = true)
    (h2 : (List.range v).all (fun m => !badWinB k m) = true) :
    BadWin k v ∧ ∀ m, m < v → ¬ BadWin k m := by
  refine ⟨(badWinB_iff k v).1 h1, ?_⟩
  intro m hm hbad
  rw [List.all_eq_true] at h2
  have := h2 m (List.mem_range.2 hm)
  rw [Bool.not_eq_eq_eq_not, Bool.not_true] at this
  exact absurd ((badWinB_iff k m).2 hbad) (by simp_all)


/-! # The claims -/

/-- C6: for every prime `p` (a `uint32_t` in the program, so `p < 2^32`) and
    every `n < 2^64`, the fast division built by `fastdiv_u32_make_prime`
    (`mu = 2^63` for `p = 2`, `mu = floor(2^64/p)` for odd `p`, a `mulhi`
    estimate and at most two corrections) returns exactly the true quotient
    and remainder, and `fastdiv_u32_mod` returns exactly `n % p`. -/
theorem claim_C6_fastdiv_exact (p n : Nat) (hp : p.Prime) (hplt : p < U32)
    (hn : n < U64) :
    fastdiv_u32_divmod (fastdiv_u32_make_prime p) n = (n / p, n % p) ∧
    fastdiv_u32_mod (fastdiv_u32_make_prime p) n = n % p :=
  ⟨fastdiv_prime_divmod' hp hplt n hn, fastdiv_u32_mod_eq hp hplt n hn⟩

theorem claim_C6_witness :
    Nat.Prime 7 ∧ 7 < U32 ∧ 123456789 < U64 ∧
    (fastdiv_u32_divmod (fastdiv_u32_make_prime 7) 123456789 =
        (123456789 / 7, 123456789 % 7) ∧
      fastdiv_u32_mod (fastdiv_u32_make_prime 7) 123456789 = 123456789 % 7) :=
  ⟨by norm_num, by decide, by decide,
    claim_C6_fastdiv_exact 7 123456789 (by norm_num) (by decide) (by decide)⟩

/-- C7: for any prime index `pi` with `p = primes[pi]`, if the carried
    offset satisfies `off[pi] < p` and `(base_test + off[pi]) ≡ 0 (mod p)`
    on entry to the tile sieve, then the offset the sieve hands back via
    `advance_off` (using `step_mod[pi] = step % p`) satisfies the same
    two properties for the next tile base `base_test + step`. -/
theorem claim_C7_carried_offsets (k tl tc base_test sc : Nat) (off : List Nat)
    (pi : Nat) (hk32 : k < U32) (hstep : tl * tc < U64)
    (hlen : off.length = (mk_epoch k tl tc).primes.length)
    (hpi : pi < (mk_epoch k tl tc).primes.length)
    (hofflt : off.getD pi 0 < (mk_epoch k tl tc).primes.getD pi 0)
    (hoffmod : (base_test + off.getD pi 0) %
      ((mk_epoch k tl tc).primes.getD pi 0) = 0) :
    (sieve_window_bad_bits_carried_fastdiv (mk_epoch k tl tc) base_test sc
        off).2.getD pi 0 < (mk_epoch k tl tc).primes.getD pi 0 ∧
    (base_test + (mk_epoch k tl tc).step +
        (sieve_window_bad_bits_carried_fastdiv (mk_epoch k tl tc) base_test sc
          off).2.getD pi 0) % ((mk_epoch k tl tc).primes.getD pi 0) = 0 := by
  obtain ⟨hpr, hfd, hsm, hsmval, _⟩ := mk_epoch_wf k tl tc hk32 hstep
  have hfdlen : (mk_epoch k tl tc).primes.length = (mk_epoch k tl tc).fd.length := by
    rw [hfd, List.length_map]
  obtain ⟨hp, hplt, _⟩ := epoch_wf_entries (mk_epoch k tl tc) hpr hfd hk32 pi hpi
  unfold sieve_window_bad_bits_carried_fastdiv
  simp only []
  rw [sieve_passes_snd_getD (mk_epoch k tl tc).primes (mk_epoch k tl tc).fd
    (mk_epoch k tl tc).step_mod off _ pi hfdlen hsm.symm hlen.symm hpi]
  exact advance_off_correct hp.pos (hsmval pi hpi) hofflt hoffmod

theorem claim_C7_witness :
    (sieve_window_bad_bits_carried_fastdiv (mk_epoch 3 4 1) 5 4
        [1, 1]).2.getD 0 0 < (mk_epoch 3 4 1).primes.getD 0 0 ∧
    (5 + (mk_epoch 3 4 1).step +
        (sieve_window_bad_bits_carried_fastdiv (mk_epoch 3 4 1) 5 4
          [1, 1]).2.getD 0 0) % ((mk_epoch 3 4 1).primes.getD 0 0) = 0 :=
  claim_C7_carried_offsets 3 4 1 5 4 [1, 1] 0 (by decide) (by decide) (by decide)
    (by decide) (by decide) (by decide)

/-- C8: in the `p = 2` stripping branch, under the stated precondition on
    the carried offset for 2 and `base_test ≥ 1`, 2 is indeed the first
    prime processed (head of `primes_upto k` for `k ≥ 2`), every position
    `i` the loop visits holds the residual seed value `base_test + i`,
    that value is even and nonzero, its `ctz` is at least 1, and
    `x >>= ctz(x)` (our `strip2`) yields the odd part exactly:
    `x = 2^ctz(x) * strip2(x)` with `strip2 x` odd. -/
theorem claim_C8_ctz_safety (k base_test sc off0 : Nat)
    (hk : 2 ≤ k) (hbase : 1 ≤ base_test)
    (hofflt : off0 < 2) (hoffmod : (base_test + off0) % 2 = 0) :
    (∃ t, primes_upto k = 2 :: t) ∧
    ∀ i, i < sc + k → off0 ≤ i → (i - off0) % 2 = 0 →
      ((List.range (sc + k)).map (fun j => base_test + j)).getD i 0 = base_test + i ∧
      (base_test + i) % 2 = 0 ∧
      base_test + i ≠ 0 ∧
      1 ≤ ctz (base_test + i) ∧
      strip2 (base_test + i) % 2 = 1 ∧
      base_test + i = 2 ^ ctz (base_test + i) * strip2 (base_test + i) := by
  refine ⟨primes_upto_two hk, ?_⟩
  intro i hi hle hmod
  have hres : ((List.range (sc + k)).map (fun j => base_test + j)).getD i 0 =
      base_test + i := by
    rw [map_getD_lt _ 0 0 _ i (by rw [List.length_range]; exact hi), range_getD hi]
  have heven : (base_test + i) % 2 = 0 :=
    (visited_iff (by omega) hofflt hoffmod).1 ⟨hle, hmod⟩
  obtain ⟨hodd, heq, hpos⟩ := strip2_spec (base_test + i) (by omega)
  have hctz : 1 ≤ ctz (base_test + i) := by
    by_contra hc
    push_neg at hc
    have hc0 : ctz (base_test + i) = 0 := by omega
    rw [hc0, pow_zero, one_mul] at heq
    omega
  exact ⟨hres, heven, by omega, hctz, hodd, heq⟩

theorem claim_C8_witness :
    1 ≤ ctz (3 + 1) ∧ strip2 (3 + 1) % 2 = 1 := by
  have h := (claim_C8_ctz_safety 2 3 2 1 (by decide) (by decide) (by decide)
    (by decide)).2 1 (by decide) (by decide) (by decide)
  exact ⟨h.2.2.2.1, h.2.2.2.2.1⟩

/-- C9 (amended): `primes_upto k` returns the ordered list of exactly the
    primes `≤ k` and the empty list for `k ≤ 1`; but when allocation fails
    the function returns the zero-initialized output, i.e. the empty
    list — the same value as a successful run with `k ≤ 1`, not a
    distinguishable `OutOfMemory` error or any other error indication. -/
theorem claim_C9_primes_upto :
    (∀ n p : Nat, p ∈ primes_upto n ↔ p.Prime ∧ p ≤ n) ∧
    (∀ n : Nat, (primes_upto n).Pairwise (· < ·)) ∧
    (∀ n : Nat, n ≤ 1 → primes_upto n = []) ∧
    (∀ b n, primes_upto_alloc false b n = []) ∧
    (∀ a n, primes_upto_alloc a false n = []) ∧
    (∀ n, primes_upto_alloc true true n = primes_upto n) := by
  refine ⟨fun n p => primes_upto_mem, primes_upto_sorted, ?_, ?_, ?_, ?_⟩
  · intro n hn
    unfold primes_upto
    rw [if_pos (by omega)]
  · intro b n
    unfold primes_upto_alloc
    by_cases h : n < 2
    · rw [if_pos h]
    · rw [if_neg h]
      simp
  · intro a n
    unfold primes_upto_alloc
    by_cases h : n < 2
    · rw [if_pos h]
    · rw [if_neg h]
      cases a <;> simp
  · intro n
    unfold primes_upto_alloc
    by_cases h : n < 2
    · rw [if_pos h]
      unfold primes_upto
      rw [if_pos h]
    · rw [if_neg h]
      simp

theorem claim_C9_witness : primes_upto 1 = [] :=
  claim_C9_primes_upto.2.2.1 1 (by decide)

theorem claim_C9_counterexample :
    primes_upto_alloc false true 10 = [] ∧
    primes_upto_alloc true true 10 = [2, 3, 5, 7] ∧
    primes_upto 1 = [] := by decide

/-- C10: `try_set_best` never increases `end_limit` (the new limit is
    `min` of the old and the candidate), and when it improves `best_m` to
    `m = 0` it writes `end_limit = 0` instead of computing `0 - 1` in
    wrapping 64-bit arithmetic. -/
theorem claim_C10_end_limit_monotone (m : Nat) (st : Nat × Nat) :
    (try_set_best m st).2 ≤ st.2 ∧
    (0 < st.1 → (try_set_best 0 st).2 = 0) := by
  constructor
  · unfold try_set_best
    by_cases h : m ≥ st.1
    · rw [if_pos h]
    · rw [if_neg h]
      simp only []
      by_cases h2 : (if m = 0 then 0 else m - 1) ≥ st.2
      · rw [if_pos h2]
      · rw [if_neg h2]
        omega
  · intro h0
    unfold try_set_best
    rw [if_neg (by omega)]
    simp only [if_pos rfl]
    show (if 0 ≥ st.2 then st.2 else 0) = 0
    by_cases h2 : 0 ≥ st.2
    · rw [if_pos h2]
      omega
    · rw [if_neg h2]

theorem claim_C10_witness : (try_set_best 0 (5, 10)).2 = 0 :=
  (claim_C10_end_limit_monotone 0 (5, 10)).2 (by decide)


/-- C3 (amended): for `k ≥ 1` (and `k < 2^32`), `start_count ≥ 1`, the
    window scan returns `m0 + s` for the smallest `s ∈ [0, start_count)`
    such that the `k` bits `bad_bits[s..s+k)` are all CLEAR (the hit
    condition in the code is a window count equal to 0, not `k`), and the
    sentinel `UINT64_MAX` when no such `s` exists. -/
theorem claim_C3_window_scan (bits : List Bool) (k sc m0 : Nat)
    (hk : 1 ≤ k) (hk32 : k < U32) (hsc : 1 ≤ sc) :
    ((∀ s, s < sc → ¬ ClearWin bits k s) → window_scan bits k sc m0 = U64MAX) ∧
    (∀ s, s < sc → ClearWin bits k s → (∀ u, u < s → ¬ ClearWin bits k u) →
      window_scan bits k sc m0 = m0 + s) := by
  have hcw : ∀ s, ClearWin bits k s ↔ countUpto bits s k = 0 := by
    intro s
    rw [countUpto_zero_iff bits s k]
    unfold ClearWin
    exact Iff.rfl
  obtain ⟨h1, h2⟩ := window_scan_spec bits k sc m0 hk hk32 hsc
  constructor
  · intro hnone
    exact h1 (fun t ht hz => hnone t ht ((hcw t).2 hz))
  · intro s hs hclear hmin
    exact h2 s hs ((hcw s).1 hclear) (fun u hu hz => hmin u hu ((hcw u).2 hz))

theorem claim_C3_witness : window_scan [false, true] 1 2 7 = 7 + 0 :=
  (claim_C3_window_scan [false, true] 1 2 7 (by decide) (by decide) (by decide)).2
    0 (by decide) (by intro j hj; interval_cases j <;> rfl)
    (fun u hu => absurd hu (Nat.not_lt_zero u))

theorem claim_C3_counterexample :
    SetWin [true, true, true] 1 0 ∧
    window_scan [true, true, true] 1 2 0 = U64MAX ∧ U64MAX ≠ 0 := by
  refine ⟨?_, by decide, by decide⟩
  intro j hj
  interval_cases j <;> rfl

/-- C4 (amended): the code's convention (bit set at smooth positions, hit
    when the window count of set bits equals 0) agrees with the normalized
    convention (hit when the count equals `k`) only after complementing
    the bit array: with the bits as given, the two scanners differ.  The
    correct equivalence is
    `window_scan_count_k (map not bits) = window_scan bits`. -/
theorem claim_C4_scan_conventions (bits : List Bool) (k sc m0 : Nat) (hk : 1 ≤ k)
    (hk32 : k < U32) (hsc : 1 ≤ sc) (hlen : sc + k ≤ bits.length) :
    window_scan_count_k (bits.map (fun b => !b)) k sc m0 =
      window_scan bits k sc m0 :=
  scan_conventions_equiv bits k sc m0 hk hk32 hsc hlen

theorem claim_C4_witness :
    window_scan_count_k ([false, true, true].map (fun b => !b)) 1 2 0 =
      window_scan [false, true, true] 1 2 0 :=
  claim_C4_scan_conventions [false, true, true] 1 2 0 (by decide) (by decide)
    (by decide) (by decide)

theorem claim_C4_counterexample :
    window_scan [true, false] 1 2 0 = 1 ∧
    window_scan_count_k [true, false] 1 2 0 = 0 ∧ (1 : Nat) ≠ 0 := by decide

/-- C5: with correct carried offsets (`OffOK`), `base_test ≥ 1` and the
    window in 64-bit range, after the tile sieve `bad_bits[i]` is set iff
    `base_test + i` is k-smooth, for every `i < start_count + k` (and the
    bit array has exactly `start_count + k` entries). -/
theorem claim_C5_smoothness_classification (k tl tc base_test sc : Nat)
    (off : List Nat) (hk32 : k < U32) (hstep : tl * tc < U64)
    (hbase : 1 ≤ base_test) (hrange : base_test + (sc + k) ≤ U64)
    (hoff : OffOK (mk_epoch k tl tc) base_test off) :
    (sieve_window_bad_bits_carried_fastdiv (mk_epoch k tl tc) base_test sc
        off).1.length = sc + k ∧
    ∀ i, i < sc + k →
      ((sieve_window_bad_bits_carried_fastdiv (mk_epoch k tl tc) base_test sc
          off).1.getD i false = true ↔ kSmooth k (base_test + i)) := by
  obtain ⟨hofflen, hoffs⟩ := hoff
  obtain ⟨hpr, hfd, hsm, _, _⟩ := mk_epoch_wf k tl tc hk32 hstep
  exact sieve_window_spec (mk_epoch k tl tc) hpr hfd hsm hk32 base_test sc
    hbase hrange off hofflen hoffs

theorem claim_C5_witness :
    (sieve_window_bad_bits_carried_fastdiv (mk_epoch 3 4 1) 5 4
        [1, 1]).1.getD 3 false = true ↔ kSmooth 3 (5 + 3) :=
  (claim_C5_smoothness_classification 3 4 1 5 4 [1, 1] (by decide) (by decide)
    (by decide) (by decide) ⟨by decide, by decide⟩).2 3 (by decide)


/-- C1 (amended): for every `k ≥ 1`, `tile_len ≥ 1`, `thread_count ≥ 1`
    (any values, covering the claim's {1, 2, 7, 16} and
    {1, 2, 3, 64, 65536}) with the window inside the 64-bit/32-bit ranges,
    the epoch search over `[start_m, end_m]` ends in a state satisfying the
    E1 invariant — `best_m` is the sentinel (and no window in the span
    qualifies, as the sentinel exceeds `end_m`) or `best_m` is a hit in
    `[start_m, end_m]` — and `best_m` is a lower bound of every m in the
    span whose window `m+1..m+k` consists entirely of NON-k-smooth values
    (`BadWin`, the property the code actually searches; the claim's
    "all k-smooth" reading is refuted by the counterexample). -/
theorem claim_C1_epoch_minimality (k tl tc start_m end_m : Nat)
    (hk : 1 ≤ k) (htl : 1 ≤ tl) (htc : 1 ≤ tc)
    (hscw : tl + k < U32) (htc32 : tc < U32)
    (hend : end_m < U64MAX) (hbig : end_m + 1 + (tl + k) ≤ U64)
    (hinit : start_m + tc * tl + 1 ≤ U64) :
    StOK k start_m end_m (epoch_run (mk_epoch k tl tc) start_m end_m tc) ∧
    ∀ m, start_m ≤ m → m ≤ end_m → BadWin k m →
      (epoch_run (mk_epoch k tl tc) start_m end_m tc).1 ≤ m := by
  have hk32 : k < U32 := by omega
  have hstep : tl * tc < U64 := by
    have h1 : tl ≤ U32 - 1 := by omega
    have h2 : tc ≤ U32 - 1 := by omega
    have h3 : tl * tc ≤ (U32 - 1) * (U32 - 1) := Nat.mul_le_mul h1 h2
    have h4 : (U32 - 1) * (U32 - 1) < U64 := by unfold U32 U64; norm_num
    omega
  exact epoch_run_minimal (mk_epoch k tl tc) (mk_epoch_wf k tl tc hk32 hstep)
    hk htl tc htc rfl start_m end_m hend hbig hscw hinit

theorem claim_C1_witness :
    StOK 2 0 7 (epoch_run (mk_epoch 2 2 1) 0 7 1) ∧
    (epoch_run (mk_epoch 2 2 1) 0 7 1).1 ≤ 4 := by
  have h := claim_C1_epoch_minimality 2 2 1 0 7 (by decide) (by decide)
    (by decide) (by decide) (by decide) (by decide) (by decide) (by decide)
  exact ⟨h.1, h.2 4 (by decide) (by decide) ((badWinB_iff 2 4).1 (by decide))⟩

theorem claim_C1_counterexample :
    (epoch_run (mk_epoch 2 2 1) 0 7 1).1 = 4 ∧ SmoothWin 2 0 ∧ (4 : Nat) ≠ 0 := by
  refine ⟨by decide, ?_, by decide⟩
  intro j hj1 hj2 p hp hdvd
  have := Nat.le_of_dvd (by omega) hdvd
  omega

set_option maxRecDepth 10000 in
set_option maxHeartbeats 4000000 in
/-- C2 (amended): the run with K = 10, tile_len = 4, batch_tiles = 2 and
    one thread computes m(k) = 1, 4, 12, 18, 54, 64, 112, 150, 150, 225
    for k = 1..10 — where m(k) is the smallest m ≥ 0 such that
    m+1..m+k are all NOT k-smooth, as the minimality conjunct proves —
    and the duplicate-suppressed output prints the rows for
    k = 1, 2, 3, 4, 5, 6, 7, 8, 10 (only k = 9 repeats).  The claim's
    values 1, 3, 8, 8, 8, 8, 14, 14, 23, 23 and row set {1, 2, 3, 7, 9}
    match neither the program nor its search predicate. -/
theorem claim_C2_end_to_end :
    run_all 10 4 2 1 64 = some [1, 4, 12, 18, 54, 64, 112, 150, 150, 225] ∧
    printed_rows [1, 4, 12, 18, 54, 64, 112, 150, 150, 225] =
      [(1, 1), (2, 4), (3, 12), (4, 18), (5, 54), (6, 64), (7, 112), (8, 150),
        (10, 225)] ∧
    ∀ pr ∈ ([(1, 1), (2, 4), (3, 12), (4, 18), (5, 54), (6, 64), (7, 112),
        (8, 150), (9, 150), (10, 225)] : List (Nat × Nat)),
      BadWin pr.1 pr.2 ∧ ∀ m, m < pr.2 → ¬ BadWin pr.1 m := by
  refine ⟨by decide, by decide, ?_⟩
  intro pr hpr
  fin_cases hpr <;> exact badWin_min_of_b _ _ (by decide) (by decide)

theorem claim_C2_witness : BadWin 2 4 :=
  (claim_C2_end_to_end.2.2 (2, 4) (by decide)).1

set_option maxRecDepth 10000 in
set_option maxHeartbeats 4000000 in
theorem claim_C2_counterexample :
    run_all 10 4 2 1 64 = some [1, 4, 12, 18, 54, 64, 112, 150, 150, 225] ∧
    [1, 4, 12, 18, 54, 64, 112, 150, 150, 225] ≠
      [1, 3, 8, 8, 8, 8, 14, 14, 23, 23] ∧
    printed_rows [1, 4, 12, 18, 54, 64, 112, 150, 150, 225] ≠
      [(1, 1), (2, 3), (3, 8), (7, 14), (9, 23)] := by
  refine ⟨by decide, by decide, by decide⟩

end MkSieve
